import Mathlib

/-!
Verification development for the `sqlthemall` JSON-to-relational importer
(`sqlthemall/json_importer.py`).

The development shallowly embeds the importer's core algorithms:

* `convert_to_dicts` / `conv_items` — normalisation of JSON lists into lists
  of dicts (scalar elements wrapped under the key `"val"`, nested non-empty
  lists flattened, empty/null elements dropped);
* `create_schema` with its inner `parse_dict` / `get_table` recursion —
  schema inference over a metadata catalog (`Metadata`), including the four
  relationship constructors (`create_many_to_one`, `create_many_to_many`,
  `create_one_to_one`, `create_one_to_many`);
* `insert_data_to_schema` with its inner `make_relational_obj` recursion —
  the object-mapping pass over a session (`Sess`) holding committed and
  pending rows, with the deduplication lookup and the commit/rollback step.

JSON values are modelled by the inductive `JValue`.  Python floats are
modelled by an `Int` payload (only construction and equality of float values
matter to the importer, never arithmetic); `datetime.date` values by a `Nat`
payload.  Python dicts are modelled as association lists in insertion order,
with `assocSet` giving the update-or-append semantics of dict assignment.
Database side effects (the alembic migration writer, ORM flushes, indexes,
logging and progress output) are outside the model; the session model keeps
exactly the information the mapped claims depend on: which rows exist per
table and which scalar fields each row carries.
-/

inductive JValue where
  | null
  | bool (b : Bool)
  | int (n : Int)
  | float (f : Int)
  | str (s : String)
  | date (d : Nat)
  | arr (items : List JValue)
  | obj (fields : List (String × JValue))
  deriving Repr

mutual
def jeq : JValue → JValue → Bool
  | .null, .null => true
  | .bool x, .bool y => x == y
  | .int x, .int y => x == y
  | .float x, .float y => x == y
  | .str x, .str y => x == y
  | .date x, .date y => x == y
  | .arr xs, .arr ys => jeqL xs ys
  | .obj f, .obj g => jeqKV f g
  | _, _ => false
def jeqL : List JValue → List JValue → Bool
  | [], [] => true
  | x :: xs, y :: ys => jeq x y && jeqL xs ys
  | _, _ => false
def jeqKV : List (String × JValue) → List (String × JValue) → Bool
  | [], [] => true
  | (k1, v1) :: xs, (k2, v2) :: ys => k1 == k2 && jeq v1 v2 && jeqKV xs ys
  | _, _ => false
end

theorem jeqL_refl_of {xs : List JValue} (H : ∀ x ∈ xs, jeq x x = true) :
    jeqL xs xs = true := by
  induction xs with
  | nil => simp [jeqL]
  | cons x tl IHl =>
    simp only [jeqL, Bool.and_eq_true]
    exact ⟨H x (by simp), IHl (fun y hy => H y (by simp [hy]))⟩

theorem jeqKV_refl_of {kvs : List (String × JValue)} (H : ∀ kv ∈ kvs, jeq kv.2 kv.2 = true) :
    jeqKV kvs kvs = true := by
  induction kvs with
  | nil => simp [jeqKV]
  | cons kv tl IHl =>
    obtain ⟨k, v⟩ := kv
    simp only [jeqKV, Bool.and_eq_true]
    exact ⟨⟨by simp, H (k, v) (by simp)⟩, IHl (fun y hy => H y (by simp [hy]))⟩

theorem jeq_refl : ∀ a : JValue, jeq a a = true := by
  have H : ∀ n : Nat, ∀ a : JValue, sizeOf a ≤ n → jeq a a = true := by
    intro n
    induction n with
    | zero => intro a h; cases a <;> simp at h
    | succ n IH =>
      intro a h
      cases a with
      | arr xs =>
        simp only [jeq]
        refine jeqL_refl_of (fun x hx => IH x ?_)
        have := List.sizeOf_lt_of_mem hx
        simp at h; omega
      | obj kvs =>
        simp only [jeq]
        refine jeqKV_refl_of (fun kv hkv => IH kv.2 ?_)
        have h1 := List.sizeOf_lt_of_mem hkv
        obtain ⟨k, v⟩ := kv
        simp at h h1 ⊢; omega
      | _ => simp [jeq]
  exact fun a => H (sizeOf a) a le_rfl

theorem jeqL_eq_of {xs ys : List JValue} (H : ∀ x ∈ xs, ∀ y, jeq x y = true → x = y)
    (hab : jeqL xs ys = true) : xs = ys := by
  induction xs generalizing ys with
  | nil => cases ys with
    | nil => rfl
    | cons y tl => simp [jeqL] at hab
  | cons x tl IHl =>
    cases ys with
    | nil => simp [jeqL] at hab
    | cons y tl2 =>
      simp only [jeqL, Bool.and_eq_true] at hab
      rw [H x (by simp) y hab.1, IHl (fun z hz => H z (by simp [hz])) hab.2]

theorem jeqKV_eq_of {xs ys : List (String × JValue)}
    (H : ∀ kv ∈ xs, ∀ y, jeq kv.2 y = true → kv.2 = y)
    (hab : jeqKV xs ys = true) : xs = ys := by
  induction xs generalizing ys with
  | nil => cases ys with
    | nil => rfl
    | cons y tl => simp [jeqKV] at hab
  | cons kv tl IHl =>
    obtain ⟨k, v⟩ := kv
    cases ys with
    | nil => simp [jeqKV] at hab
    | cons kv2 tl2 =>
      obtain ⟨k2, v2⟩ := kv2
      simp only [jeqKV, Bool.and_eq_true] at hab
      have hk : k = k2 := by simpa using hab.1.1
      have hv : v = v2 := H (k, v) (by simp) v2 hab.1.2
      rw [hk, hv, IHl (fun z hz => H z (by simp [hz])) hab.2]

theorem jeq_eq : ∀ a b : JValue, jeq a b = true → a = b := by
  have H : ∀ n : Nat, ∀ a b : JValue, sizeOf a ≤ n → jeq a b = true → a = b := by
    intro n
    induction n with
    | zero => intro a b h; cases a <;> simp at h
    | succ n IH =>
      intro a b h hab
      cases a with
      | arr xs =>
        cases b <;> simp only [jeq, Bool.false_eq_true] at hab
        case arr ys =>
          have hx : xs = ys := by
            refine jeqL_eq_of (fun x hx y hy => IH x y ?_ hy) hab
            have := List.sizeOf_lt_of_mem hx
            simp at h; omega
          rw [hx]
      | obj kvs =>
        cases b <;> simp only [jeq, Bool.false_eq_true] at hab
        case obj g =>
          have hx : kvs = g := by
            refine jeqKV_eq_of (fun kv hkv y hy => IH kv.2 y ?_ hy) hab
            have h1 := List.sizeOf_lt_of_mem hkv
            obtain ⟨k, v⟩ := kv
            simp at h h1 ⊢; omega
          rw [hx]
      | null => cases b <;> simp [jeq] at hab ⊢
      | bool x => cases b <;> simp [jeq] at hab ⊢; exact hab
      | int x => cases b <;> simp [jeq] at hab ⊢; exact hab
      | float x => cases b <;> simp [jeq] at hab ⊢; exact hab
      | str x => cases b <;> simp [jeq] at hab ⊢; exact hab
      | date x => cases b <;> simp [jeq] at hab ⊢; exact hab
  exact fun a b => H (sizeOf a) a b le_rfl

instance : DecidableEq JValue := fun a b =>
  decidable_of_iff (jeq a b = true) ⟨jeq_eq a b, fun h => h ▸ jeq_refl a⟩

/-! Depth of a JSON value, used as the termination measure for the two
recursive walks of the importer. -/

mutual
def jdepth : JValue → Nat
  | .arr xs => 1 + jdepthL xs
  | .obj kvs => 1 + jdepthKV kvs
  | _ => 0
def jdepthL : List JValue → Nat
  | [] => 0
  | x :: r => max (jdepth x) (jdepthL r)
def jdepthKV : List (String × JValue) → Nat
  | [] => 0
  | (_, v) :: r => max (jdepth v) (jdepthKV r)
end

/-- Item-wise worker of `convert_to_dicts` (the `for item in input_list`
loop): non-empty dict elements are kept, non-empty list elements are
recursively converted and spliced into the output (the recursive call
`convert_to_dicts(item)` uses the default key `"val"`), non-empty strings
and numbers/booleans are wrapped as single-key dicts, and everything else
(null, empty dict, empty list, empty string, dates) is dropped. -/
def conv_items (generic_value_string : String) : List JValue → List JValue
  | [] => []
  | .obj kvs :: rest =>
    if kvs.isEmpty then conv_items generic_value_string rest
    else .obj kvs :: conv_items generic_value_string rest
  | .arr xs :: rest =>
    if xs.isEmpty then conv_items generic_value_string rest
    else conv_items "val" xs ++ conv_items generic_value_string rest
  | .str s :: rest =>
    if s.isEmpty then conv_items generic_value_string rest
    else .obj [(generic_value_string, .str s)] :: conv_items generic_value_string rest
  | .float f :: rest => .obj [(generic_value_string, .float f)] :: conv_items generic_value_string rest
  | .int n :: rest => .obj [(generic_value_string, .int n)] :: conv_items generic_value_string rest
  | .bool b :: rest => .obj [(generic_value_string, .bool b)] :: conv_items generic_value_string rest
  | .null :: rest => conv_items generic_value_string rest
  | .date _ :: rest => conv_items generic_value_string rest

/-- `convert_to_dicts(input_list, generic_value_string="val")`: a dict is
returned unchanged; a list is converted element-wise by `conv_items`.  The
source is only ever called with a dict or a list argument. -/
def convert_to_dicts (input_list : JValue) (generic_value_string : String) : JValue :=
  match input_list with
  | .obj kvs => .obj kvs
  | .arr items => .arr (conv_items generic_value_string items)
  | _ => .arr []

theorem jdepthL_le (l : List JValue) (n : Nat) (H : ∀ i ∈ l, jdepth i ≤ n) :
    jdepthL l ≤ n := by
  induction l with
  | nil => simp [jdepthL]
  | cons x r ih =>
    simp only [jdepthL, max_le_iff]
    exact ⟨H x (by simp), ih (fun i hi => H i (by simp [hi]))⟩

theorem conv_items_depth : ∀ (gvs : String) (xs : List JValue),
    ∀ i ∈ conv_items gvs xs, jdepth i ≤ 1 + jdepthL xs := by
  intro gvs xs
  induction gvs, xs using conv_items.induct with
  | case1 g => simp [conv_items]
  | case2 g kvs rest h ih =>
    intro i hi
    simp only [conv_items, h, if_pos] at hi
    exact le_trans (ih i hi) (by simp [jdepthL]; try omega)
  | case3 g kvs rest h ih =>
    intro i hi
    simp only [conv_items, h, if_neg, if_false] at hi
    rcases List.mem_cons.mp hi with rfl | hi
    · simp [jdepthL]; try omega
    · exact le_trans (ih i hi) (by simp [jdepthL]; try omega)
  | case4 g ys rest h ih =>
    intro i hi
    simp only [conv_items, h, if_pos] at hi
    exact le_trans (ih i hi) (by simp [jdepthL]; try omega)
  | case5 g ys rest h ih1 ih2 =>
    intro i hi
    simp only [conv_items, h, if_neg, if_false] at hi
    rcases List.mem_append.mp hi with hi | hi
    · refine le_trans (ih1 i hi) ?_
      simp [jdepthL, jdepth]; try omega
    · exact le_trans (ih2 i hi) (by simp [jdepthL]; try omega)
  | case6 g s rest h ih =>
    intro i hi
    simp only [conv_items, h, if_pos] at hi
    exact le_trans (ih i hi) (by simp [jdepthL]; try omega)
  | case7 g s rest h ih =>
    intro i hi
    simp only [conv_items, h, if_neg, if_false] at hi
    rcases List.mem_cons.mp hi with rfl | hi
    · simp [jdepth, jdepthKV, jdepthL]; try omega
    · exact le_trans (ih i hi) (by simp [jdepthL]; try omega)
  | case8 g f rest ih =>
    intro i hi
    simp only [conv_items] at hi
    rcases List.mem_cons.mp hi with rfl | hi
    · simp [jdepth, jdepthKV, jdepthL]; try omega
    · exact le_trans (ih i hi) (by simp [jdepthL]; try omega)
  | case9 g n rest ih =>
    intro i hi
    simp only [conv_items] at hi
    rcases List.mem_cons.mp hi with rfl | hi
    · simp [jdepth, jdepthKV, jdepthL]; try omega
    · exact le_trans (ih i hi) (by simp [jdepthL]; try omega)
  | case10 g b rest ih =>
    intro i hi
    simp only [conv_items] at hi
    rcases List.mem_cons.mp hi with rfl | hi
    · simp [jdepth, jdepthKV, jdepthL]; try omega
    · exact le_trans (ih i hi) (by simp [jdepthL]; try omega)
  | case11 g rest ih =>
    intro i hi
    simp only [conv_items] at hi
    exact le_trans (ih i hi) (by simp [jdepthL]; try omega)
  | case12 g d rest ih =>
    intro i hi
    simp only [conv_items] at hi
    exact le_trans (ih i hi) (by simp [jdepthL]; try omega)

theorem conv_items_depthL (gvs : String) (xs : List JValue) :
    jdepthL (conv_items gvs xs) ≤ 1 + jdepthL xs :=
  jdepthL_le _ _ (conv_items_depth gvs xs)

theorem lex3_fst {a b c a' b' c' : Nat} (h : a < a') :
    Prod.Lex (· < ·) (Prod.Lex (· < ·) (· < ·)) (a, b, c) (a', b', c') :=
  Prod.Lex.left _ _ h

theorem lex3_snd {a b c a' b' c' : Nat} (h1 : a ≤ a') (h2 : b < b') :
    Prod.Lex (· < ·) (Prod.Lex (· < ·) (· < ·)) (a, b, c) (a', b', c') := by
  rcases Nat.lt_or_ge a a' with h | h
  · exact Prod.Lex.left _ _ h
  · have : a = a' := le_antisymm h1 h
    subst this
    exact Prod.Lex.right _ (Prod.Lex.left _ _ h2)

theorem lex3_thd {a b c a' b' c' : Nat} (h1 : a ≤ a') (h2 : b ≤ b') (h3 : c < c') :
    Prod.Lex (· < ·) (Prod.Lex (· < ·) (· < ·)) (a, b, c) (a', b', c') := by
  rcases Nat.lt_or_ge a a' with h | h
  · exact Prod.Lex.left _ _ h
  · have : a = a' := le_antisymm h1 h
    subst this
    rcases Nat.lt_or_ge b b' with h' | h'
    · exact Prod.Lex.right _ (Prod.Lex.left _ _ h')
    · have : b = b' := le_antisymm h2 h'
      subst this
      exact Prod.Lex.right _ (Prod.Lex.right _ h3)

theorem jdepthKV_tail_le (k : String) (v : JValue) (rest : List (String × JValue)) :
    jdepthKV rest ≤ jdepthKV ((k, v) :: rest) := by
  simp [jdepthKV]

theorem jdepth_head_le_KV (k : String) (v : JValue) (rest : List (String × JValue)) :
    jdepth v ≤ jdepthKV ((k, v) :: rest) := by
  simp [jdepthKV]

theorem jdepthL_tail_le (i : JValue) (rest : List JValue) :
    jdepthL rest ≤ jdepthL (i :: rest) := by
  simp [jdepthL]

theorem jdepth_head_le_L (i : JValue) (rest : List JValue) :
    jdepth i ≤ jdepthL (i :: rest) := by
  simp [jdepthL]

/-! The schema catalog.  A column records its name, its scalar type, whether
it is the synthetic primary key, and the target table of its foreign key (if
any); a table is a name with an ordered column list; the metadata catalog is
the ordered list of tables. -/

inductive CType where
  | date | string | boolean | integer | float
  deriving DecidableEq, Repr

structure Col where
  name : String
  ctype : CType
  primary_key : Bool
  foreign_key : Option String
  deriving DecidableEq, Repr

structure Tbl where
  name : String
  cols : List Col
  deriving DecidableEq, Repr

abbrev Metadata := List Tbl

def findTbl (md : Metadata) (n : String) : Option Tbl :=
  md.find? (fun t => t.name = n)

/-- `k in self.metadata.tables` -/
def hasTbl (md : Metadata) (n : String) : Bool :=
  (findTbl md n).isSome

/-- `k in current_table.columns` (membership of a column name in the named
table). -/
def colExists (md : Metadata) (tname k : String) : Bool :=
  match findTbl md tname with
  | some t => t.cols.any (fun c => c.name = k)
  | none => false

/-- Column merge used by `Table(..., extend_existing=True)` on an existing
table: same-named columns are overridden in place, new columns appended. -/
def mergeCols (olds news : List Col) : List Col :=
  olds.map (fun c =>
    match news.find? (fun c2 => c2.name = c.name) with
    | some c2 => c2
    | none => c)
  ++ news.filter (fun c2 => ¬ olds.any (fun c => c.name = c2.name))

/-- `Table(name, metadata, cols..., extend_existing=True)`: registers a new
table, or extends the columns of an existing table of the same name. -/
def addTable (md : Metadata) (t : Tbl) : Metadata :=
  if hasTbl md t.name then
    md.map (fun t0 => if t0.name = t.name then ⟨t0.name, mergeCols t0.cols t.cols⟩ else t0)
  else md ++ [t]

/-- `current_table.append_column(Column(...))` on the table named `tname`. -/
def append_column (md : Metadata) (tname : String) (c : Col) : Metadata :=
  md.map (fun t => if t.name = tname then ⟨t.name, t.cols ++ [c]⟩ else t)

/-- `Column("_id", Integer, primary_key=True)` -/
def idCol : Col := ⟨"_id", CType.integer, true, none⟩

/-- `Column(target + "_id", ForeignKey(target + "._id"))` (type inferred
from the referenced integer primary key). -/
def fkCol (target : String) : Col := ⟨target ++ "_id", CType.integer, false, some target⟩

/-- `create_many_to_one`: new child table with `_id` primary key and a
`<parent>_id` foreign key column (the `Index(...)` is not a column and is
not modelled). -/
def create_many_to_one (md : Metadata) (name parent : String) : Metadata :=
  addTable md ⟨name, [idCol, fkCol parent]⟩

/-- `create_many_to_many`: a bridge table `bridge_<parent>_<name>` carrying
exactly the two foreign key columns, then the child table with only the
`_id` primary key. -/
def create_many_to_many (md : Metadata) (name parent : String) : Metadata :=
  addTable (addTable md ⟨"bridge_" ++ parent ++ "_" ++ name, [fkCol parent, fkCol name]⟩)
    ⟨name, [idCol]⟩

/-- `create_one_to_one`: same physical shape as `create_many_to_one`. -/
def create_one_to_one (md : Metadata) (name parent : String) : Metadata :=
  addTable md ⟨name, [idCol, fkCol parent]⟩

/-- `create_one_to_many`: same physical shape as `create_many_to_one`. -/
def create_one_to_many (md : Metadata) (name parent : String) : Metadata :=
  addTable md ⟨name, [idCol, fkCol parent]⟩

/-- `get_table(k, current_table, simple, simple_reltype)` from
`create_schema.parse_dict`: reuse the table named `k` if it exists,
otherwise set the schema-changed flag and create it by the relationship
policy.  The table returned for the recursion is always the one named `k`;
the pair returned here is the updated catalog and flag. -/
def get_table (simple simple_reltype : Bool) (md : Metadata) (changed : Bool)
    (k parent : String) : Metadata × Bool :=
  if hasTbl md k then (md, changed)
  else
    if !simple then
      if simple_reltype then (create_many_to_one md k parent, true)
      else (create_many_to_many md k parent, true)
    else
      if simple_reltype then (create_one_to_one md k parent, true)
      else (create_one_to_many md k parent, true)

/-- The `col_types` dispatch of `parse_dict`: `type(val)` looked up among
date, str, bool, int, float (exact type match, so `None` and containers map
to nothing). -/
def scalar_col_type : JValue → Option CType
  | .date _ => some CType.date
  | .str _ => some CType.string
  | .bool _ => some CType.boolean
  | .int _ => some CType.integer
  | .float _ => some CType.float
  | _ => none

mutual
/-- The `for k, val in obj.items()` loop of `create_schema.parse_dict`,
threading the catalog and the `schema_changed` flag.  A dict value is left
unchanged by `convert_to_dicts` and recursed into (skipped when empty); a
list value is converted by `conv_items "val"` and each surviving element is
recursed into (skipped when none survive); a scalar value of a recognised
type appends a column named exactly `k` when no such column exists on the
current table. -/
def parse_dict (simple : Bool) (md : Metadata) (changed : Bool) (tname : String) :
    List (String × JValue) → Metadata × Bool
  | [] => (md, changed)
  | (k, .obj kvs) :: rest =>
    if kvs.isEmpty then parse_dict simple md changed tname rest
    else
      let s1 := get_table simple true md changed k tname
      let s2 := parse_dict simple s1.1 s1.2 k kvs
      parse_dict simple s2.1 s2.2 tname rest
  | (k, .arr xs) :: rest =>
    let items := conv_items "val" xs
    if items.isEmpty then parse_dict simple md changed tname rest
    else
      let s1 := get_table simple false md changed k tname
      let s2 := parse_items simple s1.1 s1.2 k items
      parse_dict simple s2.1 s2.2 tname rest
  | (k, v) :: rest =>
    match scalar_col_type v with
    | some ct =>
      if colExists md tname k then parse_dict simple md changed tname rest
      else parse_dict simple (append_column md tname ⟨k, ct, false, none⟩) true tname rest
    | none => parse_dict simple md changed tname rest
termination_by kvs => (jdepthKV kvs, 1, kvs.length)
decreasing_by
  all_goals simp_wf
  all_goals first
    | exact lex3_thd (jdepthKV_tail_le _ _ _) le_rfl (Nat.lt_succ_self _)
    | exact lex3_thd (jdepthL_tail_le _ _) le_rfl (Nat.lt_succ_self _)
    | (refine lex3_snd (le_trans (conv_items_depthL "val" _)
        (le_trans ?_ (jdepth_head_le_KV _ _ _))) Nat.zero_lt_one; simp [jdepth]; done)
    | (refine lex3_fst (lt_of_lt_of_le ?_ (jdepth_head_le_KV _ _ _)); simp [jdepth]; done)
    | (refine lex3_fst (lt_of_lt_of_le ?_ (jdepth_head_le_L _ _)); simp [jdepth]; done)
/-- The `for i in val: parse_dict(obj=i, ...)` loop of
`create_schema.parse_dict` over a converted list.  Every element produced by
`conv_items` is a dict; the non-dict branch is unreachable. -/
def parse_items (simple : Bool) (md : Metadata) (changed : Bool) (tname : String) :
    List JValue → Metadata × Bool
  | [] => (md, changed)
  | .obj kvs :: rest =>
    let s := parse_dict simple md changed tname kvs
    parse_items simple s.1 s.2 tname rest
  | _ :: rest => parse_items simple md changed tname rest
termination_by items => (jdepthL items, 0, items.length)
decreasing_by
  all_goals simp_wf
  all_goals first
    | exact lex3_thd (jdepthKV_tail_le _ _ _) le_rfl (Nat.lt_succ_self _)
    | exact lex3_thd (jdepthL_tail_le _ _) le_rfl (Nat.lt_succ_self _)
    | (refine lex3_snd (le_trans (conv_items_depthL "val" _)
        (le_trans ?_ (jdepth_head_le_KV _ _ _))) Nat.zero_lt_one; simp [jdepth]; done)
    | (refine lex3_fst (lt_of_lt_of_le ?_ (jdepth_head_le_KV _ _ _)); simp [jdepth]; done)
    | (refine lex3_fst (lt_of_lt_of_le ?_ (jdepth_head_le_L _ _)); simp [jdepth]; done)
end

/-- `SQLThemAll.create_schema(jsonobj, root_table, simple, ...)`.  The
`schema_changed` flag is reset to false on entry; the root table (with its
`_id` primary key) is created when missing; a list input is wrapped as a
dict keyed by `self.root_table` (note: the attribute, not the resolved
`root_table` parameter); then `parse_dict` walks the object.  The returned
pair is the final catalog and the flag as set by the walk (`write_schema`,
which only emits DDL to the database, is not modelled).  A scalar input
would raise `AttributeError` at `jsonobj.items()` in the source, hence
`none`. -/
def create_schema (md : Metadata) (self_root root_table : String) (simple : Bool)
    (jsonobj : JValue) : Option (Metadata × Bool) :=
  let st := if hasTbl md root_table then (md, false)
            else (addTable md ⟨root_table, [idCol]⟩, true)
  match jsonobj with
  | .arr xs => some (parse_dict simple st.1 st.2 root_table [(self_root, .arr xs)])
  | .obj kvs => some (parse_dict simple st.1 st.2 root_table kvs)
  | _ => none

/-! The object-mapping pass.  A row is modelled by its scalar field
assignments (`pre_ormobjc`); the session tracks committed rows (`dbRows`)
and rows staged by `session.add` (`newRows`), each tagged with its table
name.  The deduplication query sees both (the session autoflushes pending
rows before a query).  Exceptions raised by the lookup query are modelled by
the oracle `qfail`; they propagate as `Except.error`. -/

abbrev Row := List (String × JValue)

/-- Python dict assignment `d[k] = v`: replace in place if the key exists,
else append. -/
def assocSet (l : List (String × JValue)) (k : String) (v : JValue) :
    List (String × JValue) :=
  if l.any (fun p => p.1 = k) then l.map (fun p => if p.1 = k then (k, v) else p)
  else l ++ [(k, v)]

def assocGet (r : Row) (k : String) : Option JValue :=
  (r.find? (fun p => p.1 = k)).map (fun p => p.2)

structure Sess where
  dbRows : List (String × Row)
  newRows : List (String × Row)
  deriving DecidableEq, Repr

/-- `query.filter_by(**pre_ormobjc)`: a row matches when every filter field
equals the row's value for that column. -/
def rowMatches (filters : Row) (r : Row) : Bool :=
  filters.all (fun kv => assocGet r kv.1 = some kv.2)

def rowsOf (sess : Sess) (name : String) : List Row :=
  ((sess.dbRows ++ sess.newRows).filter (fun p => p.1 = name)).map (fun p => p.2)

/-- `session.query(self.base.classes[name]).filter_by(**filters).first()` -/
def queryFirst (sess : Sess) (name : String) (filters : Row) : Option Row :=
  (rowsOf sess name).find? (rowMatches filters)

mutual
/-- `insert_data_to_schema.make_relational_obj(name, objc, session,
skip_empty=True)`.  `hasCol name k` models `hasattr(self.base.classes[name],
k)`; `qfail name filters` models whether the (unguarded) deduplication query
raises.  Returns the mapped row (`none` for non-dict or empty-dict input)
and the updated session; a query exception propagates as `Except.error`
because the source wraps only `session.commit()` in try/except. -/
def make_relational_obj (hasCol : String → String → Bool) (simple : Bool)
    (qfail : String → Row → Bool) (name : String) (objc : JValue)
    (skip_empty : Bool) (sess : Sess) : Except Unit (Option Row × Sess) :=
  match objc with
  | .obj kvs =>
    if kvs.isEmpty then .ok (none, sess)
    else
      match mro_fields hasCol simple qfail name skip_empty sess [] [] kvs with
      | .error e => .error e
      | .ok (pre, _coll, s1) =>
        if !simple then
          if qfail name pre then .error ()
          else
            match queryFirst s1 name pre with
            | some r => .ok (some r, s1)
            | none => .ok (some pre, ⟨s1.dbRows, s1.newRows ++ [(name, pre)]⟩)
        else .ok (some pre, ⟨s1.dbRows, s1.newRows ++ [(name, pre)]⟩)
  | _ => .ok (none, sess)
termination_by (jdepth objc, 0, 0)
decreasing_by
  all_goals simp_wf
  all_goals exact lex3_fst (by simp [jdepth]; try omega)
/-- The `for k, val in objc.items()` loop of `make_relational_obj`, building
the scalar fields `pre_ormobjc` and the collection dict, threading the
session.  Null/empty values are skipped under `skip_empty`; dict values are
mapped recursively (a `None` result is filtered out of the one-element
collection list); list values are converted by `conv_items "val"` and mapped
element-wise (`None` results are kept in the collection list); any other
value becomes a scalar field when the mapped class has the attribute. -/
def mro_fields (hasCol : String → String → Bool) (simple : Bool)
    (qfail : String → Row → Bool) (name : String) (skip_empty : Bool)
    (sess : Sess) (pre : Row) (coll : List (String × List (Option Row))) :
    List (String × JValue) →
    Except Unit (Row × List (String × List (Option Row)) × Sess)
  | [] => .ok (pre, coll, sess)
  | (k, v) :: rest =>
    if (v = .null ∨ v = .arr [] ∨ v = .obj []) ∧ skip_empty then
      mro_fields hasCol simple qfail name skip_empty sess pre coll rest
    else if v = .null then
      mro_fields hasCol simple qfail name skip_empty sess pre coll rest
    else
      match v with
      | .obj kvs =>
        match make_relational_obj hasCol simple qfail k (.obj kvs) true sess with
        | .error e => .error e
        | .ok (r?, s1) =>
          let entry := match r? with
            | some r => [some r]
            | none => []
          mro_fields hasCol simple qfail name skip_empty s1 pre
            (if coll.any (fun p => p.1 = k) then
              coll.map (fun p => if p.1 = k then (k, entry) else p)
             else coll ++ [(k, entry)]) rest
      | .arr xs =>
        match mro_items hasCol simple qfail k sess (conv_items "val" xs) with
        | .error e => .error e
        | .ok (rs, s1) =>
          mro_fields hasCol simple qfail name skip_empty s1 pre
            (if coll.any (fun p => p.1 = k) then
              coll.map (fun p => if p.1 = k then (k, rs) else p)
             else coll ++ [(k, rs)]) rest
      | v =>
        if hasCol name k then
          mro_fields hasCol simple qfail name skip_empty sess (assocSet pre k v) coll rest
        else mro_fields hasCol simple qfail name skip_empty sess pre coll rest
termination_by kvs => (jdepthKV kvs, 2, kvs.length)
decreasing_by
  all_goals simp_wf
  all_goals first
    | exact lex3_thd (jdepthKV_tail_le _ _ _) le_rfl (Nat.lt_succ_self _)
    | (refine lex3_snd (le_trans (conv_items_depthL "val" _)
        (le_trans ?_ (jdepth_head_le_KV _ _ _))) (by omega); simp [jdepth]; done)
    | (refine lex3_snd (le_trans ?_ (jdepth_head_le_KV _ _ _)) (by omega); simp [jdepth]; done)
/-- The `[make_relational_obj(k, i, session=session) for i in val]`
comprehension: maps each converted list element, threading the session, and
collects the results (including `None`s). -/
def mro_items (hasCol : String → String → Bool) (simple : Bool)
    (qfail : String → Row → Bool) (name : String) (sess : Sess) :
    List JValue → Except Unit (List (Option Row) × Sess)
  | [] => .ok ([], sess)
  | i :: rest =>
    match make_relational_obj hasCol simple qfail name i true sess with
    | .error e => .error e
    | .ok (r?, s1) =>
      match mro_items hasCol simple qfail name s1 rest with
      | .error e => .error e
      | .ok (rs, s2) => .ok (r? :: rs, s2)
termination_by items => (jdepthL items, 1, items.length)
decreasing_by
  all_goals simp_wf
  all_goals first
    | exact lex3_thd (jdepthL_tail_le _ _) le_rfl (Nat.lt_succ_self _)
    | (refine lex3_snd (le_trans ?_ (jdepth_head_le_L _ _)) (by omega); simp; done)
end

/-- Outcome of `insert_data_to_schema`: either the call returns normally
with the resulting committed database, or an exception escapes to the
caller (leaving the database as it was). -/
inductive InsertOutcome where
  | ok (db : List (String × Row))
  | raised (db : List (String × Row))
  deriving DecidableEq, Repr

/-- Whether an exception escaped `insert_data_to_schema` to its caller. -/
def surfaced : InsertOutcome → Bool
  | .ok _ => false
  | .raised _ => true

/-- The list-wrapping step of `insert_data_to_schema` (and of
`create_schema`): a list input becomes a dict with the single key
`self.root_table`. -/
def wrap_root (self_root : String) : JValue → JValue
  | .arr xs => JValue.obj [(self_root, JValue.arr xs)]
  | v => v

/-- `SQLThemAll.insert_data_to_schema(jsonobj)`: reflect the catalog (the
`hasCol` oracle stands for the reflected mapped classes), wrap a list input
as a dict keyed by `self.root_table`, map the document inside a fresh
session, then `try: session.commit() except: traceback.print_exc();
session.rollback()`.  A successful commit appends the staged rows to the
database; a failing commit rolls back (database unchanged) and the
exception is caught, so the call still returns normally.  Only an exception
thrown outside the try (in particular by the deduplication query) escapes
to the caller. -/
def insert_data_to_schema (hasCol : String → String → Bool) (simple : Bool)
    (qfail : String → Row → Bool) (self_root : String) (commitOk : Bool)
    (db : List (String × Row)) (jsonobj : JValue) : InsertOutcome :=
  match make_relational_obj hasCol simple qfail self_root (wrap_root self_root jsonobj)
    true ⟨db, []⟩ with
  | .error _ => .raised db
  | .ok (_, sess) =>
    if commitOk then .ok (sess.dbRows ++ sess.newRows)
    else .ok db

/-! Catalog lemmas: growth of the metadata under the schema-creating
operations, used for the idempotence proof of `create_schema`. -/

/-- Catalog inclusion: every table name and every (table, column-name) pair
present in `md` is still present in `md'`. -/
def mdIncl (md md' : Metadata) : Prop :=
  (∀ n, hasTbl md n = true → hasTbl md' n = true) ∧
  (∀ t k, colExists md t k = true → colExists md' t k = true)

theorem mdIncl_refl (md : Metadata) : mdIncl md md :=
  ⟨fun _ h => h, fun _ _ h => h⟩

theorem mdIncl_trans {m1 m2 m3 : Metadata} (h1 : mdIncl m1 m2) (h2 : mdIncl m2 m3) :
    mdIncl m1 m3 :=
  ⟨fun n h => h2.1 n (h1.1 n h), fun t k h => h2.2 t k (h1.2 t k h)⟩

theorem findTbl_nil (n : String) : findTbl [] n = none := rfl

theorem findTbl_cons (t : Tbl) (md : Metadata) (n : String) :
    findTbl (t :: md) n = if t.name = n then some t else findTbl md n := by
  by_cases h : t.name = n <;> simp [findTbl, List.find?_cons, h]

theorem mergeCols_any {olds news : List Col} {k : String}
    (h : olds.any (fun c => c.name = k) = true) :
    (mergeCols olds news).any (fun c => c.name = k) = true := by
  simp only [List.any_eq_true, decide_eq_true_eq] at h ⊢
  obtain ⟨c, hc, hck⟩ := h
  refine ⟨match news.find? (fun c2 => c2.name = c.name) with
          | some c2 => c2
          | none => c,
    List.mem_append_left _ (List.mem_map.mpr ⟨c, hc, rfl⟩), ?_⟩
  rcases hf : news.find? (fun c2 => c2.name = c.name) with _ | c2
  · simp only [hf]
    exact hck
  · simp only [hf]
    have h2 := List.find?_some hf
    simp only [decide_eq_true_eq] at h2
    rw [h2, hck]

theorem hasTbl_map_pres {md : Metadata} {f : Tbl → Tbl}
    (hf : ∀ t, (f t).name = t.name) (n : String) :
    hasTbl (md.map f) n = hasTbl md n := by
  induction md with
  | nil => rfl
  | cons t md ih =>
    rw [List.map_cons]
    rw [hasTbl, findTbl_cons, hasTbl, findTbl_cons, hf t]
    by_cases h : t.name = n
    · simp [h]
    · simp only [h, if_false]
      exact ih

theorem hasTbl_append (md : Metadata) (l : Metadata) (n : String) :
    hasTbl (md ++ l) n = (hasTbl md n || hasTbl l n) := by
  induction md with
  | nil => simp [hasTbl, findTbl]
  | cons t md ih =>
    rw [List.cons_append, hasTbl, findTbl_cons, hasTbl, findTbl_cons]
    by_cases h : t.name = n
    · simp [h]
    · simp only [h, if_false]
      exact ih

theorem hasTbl_addTable {md : Metadata} {n : String} (t : Tbl)
    (h : hasTbl md n = true) : hasTbl (addTable md t) n = true := by
  unfold addTable
  by_cases he : hasTbl md t.name
  · rw [if_pos he, hasTbl_map_pres (fun t0 => by by_cases h0 : t0.name = t.name <;> simp [h0])]
    exact h
  · rw [if_neg he, hasTbl_append]
    simp [h]

theorem hasTbl_addTable_self (md : Metadata) (t : Tbl) :
    hasTbl (addTable md t) t.name = true := by
  unfold addTable
  by_cases he : hasTbl md t.name
  · rw [if_pos he, hasTbl_map_pres (fun t0 => by by_cases h0 : t0.name = t.name <;> simp [h0])]
    exact he
  · rw [if_neg he, hasTbl_append]
    simp [hasTbl, findTbl, List.find?]

theorem hasTbl_addTable_inv {md : Metadata} {t : Tbl} {n : String}
    (h : hasTbl (addTable md t) n = true) : hasTbl md n = true ∨ n = t.name := by
  unfold addTable at h
  by_cases he : hasTbl md t.name
  · rw [if_pos he, hasTbl_map_pres (fun t0 => by by_cases h0 : t0.name = t.name <;> simp [h0])] at h
    exact Or.inl h
  · rw [if_neg he, hasTbl_append] at h
    rcases Bool.or_eq_true_iff.mp h with h | h
    · exact Or.inl h
    · right
      by_cases hn : t.name = n
      · exact hn.symm
      · simp [hasTbl, findTbl, List.find?, hn] at h

theorem findTbl_append_of_not_left {md l : Metadata} {n : String}
    (h : hasTbl md n = false) : findTbl (md ++ l) n = findTbl l n := by
  induction md with
  | nil => simp
  | cons t md ih =>
    rw [hasTbl, findTbl_cons] at h
    by_cases ht : t.name = n
    · simp [ht] at h
    · rw [List.cons_append, findTbl_cons, if_neg ht]
      exact ih (by rw [hasTbl]; simpa [ht] using h)

theorem addTable_fresh_eq {md : Metadata} {t : Tbl} (h : hasTbl md t.name = false) :
    addTable md t = md ++ [t] := by
  unfold addTable
  rw [if_neg (by simp [h])]

theorem findTbl_addTable_fresh {md : Metadata} {t : Tbl}
    (h : hasTbl md t.name = false) : findTbl (addTable md t) t.name = some t := by
  unfold addTable
  rw [if_neg (by simp [h]), findTbl_append_of_not_left h]
  simp [findTbl, List.find?]

theorem findTbl_append_single {md : Metadata} {t : Tbl} {n : String}
    (hn : n ≠ t.name) : findTbl (md ++ [t]) n = findTbl md n := by
  induction md with
  | nil =>
    simp only [List.nil_append]
    rw [findTbl_cons, if_neg (fun h => hn h.symm)]
  | cons t0 md ih =>
    rw [List.cons_append, findTbl_cons, findTbl_cons]
    by_cases h0 : t0.name = n
    · simp [h0]
    · rw [if_neg h0, if_neg h0]
      exact ih

theorem findTbl_addTable_fresh_other {md : Metadata} {t : Tbl} {n : String}
    (hf : hasTbl md t.name = false) (hn : n ≠ t.name) :
    findTbl (addTable md t) n = findTbl md n := by
  unfold addTable
  rw [if_neg (by simp [hf])]
  exact findTbl_append_single hn

theorem colExists_map_merge {md : Metadata} {t : Tbl} {tn k : String}
    (h : colExists md tn k = true) :
    colExists (md.map (fun t0 => if t0.name = t.name then ⟨t0.name, mergeCols t0.cols t.cols⟩ else t0)) tn k = true := by
  induction md with
  | nil => simp [colExists, findTbl] at h
  | cons t0 md ih =>
    rw [colExists, findTbl_cons] at h
    rw [List.map_cons, colExists]
    by_cases hn : t0.name = tn
    · rw [if_pos hn] at h
      by_cases hm : t0.name = t.name
      · rw [if_pos hm, findTbl_cons, if_pos hn]
        exact mergeCols_any h
      · rw [if_neg hm, findTbl_cons, if_pos hn]
        exact h
    · rw [if_neg hn] at h
      by_cases hm : t0.name = t.name <;>
        · first
          | (rw [if_pos hm, findTbl_cons, if_neg hn]; exact ih h)
          | (rw [if_neg hm, findTbl_cons, if_neg hn]; exact ih h)

theorem colExists_append_left {md l : Metadata} {tn k : String}
    (h : colExists md tn k = true) : colExists (md ++ l) tn k = true := by
  induction md with
  | nil => simp [colExists, findTbl] at h
  | cons t0 md ih =>
    rw [colExists, findTbl_cons] at h
    rw [List.cons_append, colExists, findTbl_cons]
    by_cases hn : t0.name = tn
    · rw [if_pos hn] at h ⊢; exact h
    · rw [if_neg hn] at h ⊢; exact ih h

theorem colExists_addTable {md : Metadata} (t : Tbl) {tn k : String}
    (h : colExists md tn k = true) : colExists (addTable md t) tn k = true := by
  unfold addTable
  by_cases he : hasTbl md t.name
  · rw [if_pos he]; exact colExists_map_merge h
  · rw [if_neg he]; exact colExists_append_left h

theorem addTable_incl (md : Metadata) (t : Tbl) : mdIncl md (addTable md t) :=
  ⟨fun _ h => hasTbl_addTable t h, fun _ _ h => colExists_addTable t h⟩

theorem hasTbl_append_column (md : Metadata) (tn : String) (c : Col) (n : String) :
    hasTbl (append_column md tn c) n = hasTbl md n := by
  unfold append_column
  exact hasTbl_map_pres (fun t0 => by by_cases h0 : t0.name = tn <;> simp [h0]) n

theorem colExists_append_column {md : Metadata} {tn0 k : String} (tn : String) (c : Col)
    (h : colExists md tn0 k = true) : colExists (append_column md tn c) tn0 k = true := by
  unfold append_column
  induction md with
  | nil => simp [colExists, findTbl] at h
  | cons t0 md ih =>
    rw [colExists, findTbl_cons] at h
    rw [List.map_cons, colExists]
    by_cases hn : t0.name = tn0
    · rw [if_pos hn] at h
      by_cases hm : t0.name = tn
      · rw [if_pos hm, findTbl_cons]
        simp only [hn, if_pos]
        simp only [List.any_append, Bool.or_eq_true]
        exact Or.inl h
      · rw [if_neg hm, findTbl_cons, if_pos hn]
        exact h
    · rw [if_neg hn] at h
      by_cases hm : t0.name = tn <;>
        · first
          | (rw [if_pos hm, findTbl_cons]; simp only [hn, if_neg, if_false]; exact ih h)
          | (rw [if_neg hm, findTbl_cons]; simp only [hn, if_neg, if_false]; exact ih h)

theorem append_column_incl (md : Metadata) (tn : String) (c : Col) :
    mdIncl md (append_column md tn c) :=
  ⟨fun n => by rw [hasTbl_append_column]; exact id,
   fun _ _ h => colExists_append_column tn c h⟩

theorem colExists_append_column_self {md : Metadata} {tn : String}
    (h : hasTbl md tn = true) (c : Col) :
    colExists (append_column md tn c) tn c.name = true := by
  unfold append_column
  induction md with
  | nil => simp [hasTbl, findTbl] at h
  | cons t0 md ih =>
    rw [hasTbl, findTbl_cons] at h
    rw [List.map_cons, colExists]
    by_cases hn : t0.name = tn
    · rw [if_pos hn, findTbl_cons]
      simp only [hn, if_pos]
      simp
    · rw [if_neg hn, findTbl_cons]
      simp only [hn, if_neg, if_false]
      rw [hasTbl] at ih
      rw [if_neg hn] at h
      exact ih h

theorem get_table_incl (simple rt : Bool) (md : Metadata) (c : Bool) (k parent : String) :
    mdIncl md (get_table simple rt md c k parent).1 := by
  unfold get_table
  cases hh : hasTbl md k
  · cases simple <;> cases rt <;>
      simp only [hh, Bool.false_eq_true, if_false, Bool.not_false, Bool.not_true,
        if_true, create_many_to_one, create_many_to_many, create_one_to_one,
        create_one_to_many] <;>
      first
        | exact addTable_incl md _
        | exact mdIncl_trans (addTable_incl md _) (addTable_incl _ _)
  · simp only [hh, if_true]
    exact mdIncl_refl md

theorem get_table_hasTbl (simple rt : Bool) (md : Metadata) (c : Bool) (k parent : String) :
    hasTbl (get_table simple rt md c k parent).1 k = true := by
  unfold get_table
  cases hh : hasTbl md k
  · cases simple <;> cases rt <;>
      simp only [hh, Bool.false_eq_true, if_false, Bool.not_false, Bool.not_true,
        if_true, create_many_to_one, create_many_to_many, create_one_to_one,
        create_one_to_many] <;>
      exact hasTbl_addTable_self _ _
  · simp [hh]

theorem get_table_found {md : Metadata} {k : String} (simple rt : Bool) (c : Bool)
    (parent : String) (h : hasTbl md k = true) :
    get_table simple rt md c k parent = (md, c) := by
  unfold get_table
  simp [h]

theorem parse_dict_scalar_eq {v : JValue} (hno : ∀ kvs, v = JValue.obj kvs → False)
    (hna : ∀ xs, v = JValue.arr xs → False) {simple : Bool} {md : Metadata} {c : Bool}
    {t k : String} {rest : List (String × JValue)} :
    parse_dict simple md c t ((k, v) :: rest) =
      match scalar_col_type v with
      | some ct =>
        if colExists md t k then parse_dict simple md c t rest
        else parse_dict simple (append_column md t ⟨k, ct, false, none⟩) true t rest
      | none => parse_dict simple md c t rest := by
  cases v with
  | obj kvs => exact absurd rfl (hno kvs)
  | arr xs => exact absurd rfl (hna xs)
  | _ => simp only [parse_dict]

theorem parse_items_skip_eq {hd : JValue} (hno : ∀ kvs, hd = JValue.obj kvs → False)
    {simple : Bool} {md : Metadata} {c : Bool} {t : String} {rest : List JValue} :
    parse_items simple md c t (hd :: rest) = parse_items simple md c t rest := by
  cases hd with
  | obj kvs => exact absurd rfl (hno kvs)
  | _ => simp only [parse_items]

/-- Both recursive walks of `create_schema.parse_dict` only grow the
catalog: every table name and column name present before is present
afterwards. -/
theorem parse_mono (simple : Bool) :
    (∀ md changed tname kvs, mdIncl md (parse_dict simple md changed tname kvs).1) ∧
    (∀ md changed tname items, mdIncl md (parse_items simple md changed tname items).1) := by
  apply parse_dict.mutual_induct simple
  · intro md c t
    simp only [parse_dict]
    exact mdIncl_refl md
  · intro md c t k kvs rest h ih
    simp only [parse_dict, h, if_true]
    exact ih
  · intro md c t k kvs rest h s1 s2 ih1 ih1' ih2
    simp only [parse_dict, h, if_false]
    exact mdIncl_trans (get_table_incl simple true md c k t) (mdIncl_trans ih1 ih2)
  · intro md c t k xs rest items h ih
    simp only [parse_dict, h, if_true]
    exact ih
  · intro md c t k xs rest items h s1 s2 ih1 ih1' ih2
    simp only [parse_dict, h, if_false]
    exact mdIncl_trans (get_table_incl simple false md c k t) (mdIncl_trans ih1 ih2)
  · intro md c t k v rest hno hna ct hct hce ih
    rw [parse_dict_scalar_eq hno hna]
    simp only [hct, hce, if_true]
    exact ih
  · intro md c t k v rest hno hna ct hct hce ih
    rw [parse_dict_scalar_eq hno hna]
    simp only [hct]
    rw [if_neg hce]
    exact mdIncl_trans (append_column_incl md t _) ih
  · intro md c t k v rest hno hna hct ih
    rw [parse_dict_scalar_eq hno hna]
    simp only [hct]
    exact ih
  · intro md c t
    simp only [parse_items]
    exact mdIncl_refl md
  · intro md c t kvs rest s ih1 ih2
    simp only [parse_items]
    exact mdIncl_trans ih1 ih2
  · intro md c t hd rest hno ih
    rw [parse_items_skip_eq hno]
    exact ih

/-- Stability: once a walk of `parse_dict` has run from a catalog containing
the current table, re-running the same walk from any catalog that includes
the result is a no-op — neither the catalog nor the schema-changed flag
moves. -/
theorem parse_stab (simple : Bool) :
    (∀ md changed tname kvs, ∀ md' c', parse_dict simple md changed tname kvs = (md', c') →
       hasTbl md tname = true → ∀ md2 c2, mdIncl md' md2 →
       parse_dict simple md2 c2 tname kvs = (md2, c2)) ∧
    (∀ md changed tname items, ∀ md' c', parse_items simple md changed tname items = (md', c') →
       hasTbl md tname = true → ∀ md2 c2, mdIncl md' md2 →
       parse_items simple md2 c2 tname items = (md2, c2)) := by
  apply parse_dict.mutual_induct simple
  · intro md c t md' c' h1 hT md2 c2 hincl
    simp only [parse_dict]
  · intro md c t k kvs rest h ih md' c' h1 hT md2 c2 hincl
    simp only [parse_dict, h, if_true] at h1
    simp only [parse_dict, h, if_true]
    exact ih md' c' h1 hT md2 c2 hincl
  · intro md c t k kvs rest h s1 s2 ih1 ih1' ih2 md' c' h1 hT md2 c2 hincl
    simp only [parse_dict, h, Bool.false_eq_true, if_false] at h1
    have hmono1 : mdIncl md s1.1 := get_table_incl simple true md c k t
    have hks1 : hasTbl s1.1 k = true := get_table_hasTbl simple true md c k t
    have hmono2 : mdIncl s1.1 s2.1 := (parse_mono simple).1 s1.1 s1.2 k kvs
    have hmono3 : mdIncl s2.1 md' := by
      have h0 := (parse_mono simple).1 s2.1 s2.2 t rest
      rw [h1] at h0
      exact h0
    have hk2 : hasTbl md2 k = true :=
      hincl.1 k (hmono3.1 k (hmono2.1 k hks1))
    have ht2 : hasTbl s2.1 t = true := hmono2.1 t (hmono1.1 t hT)
    simp only [parse_dict, h, Bool.false_eq_true, if_false]
    rw [get_table_found simple true c2 t hk2]
    rw [ih1 s2.1 s2.2 rfl hks1 md2 c2 (mdIncl_trans hmono3 hincl)]
    exact ih2 md' c' h1 ht2 md2 c2 hincl
  · intro md c t k xs rest items h ih md' c' h1 hT md2 c2 hincl
    simp only [parse_dict, h, if_true] at h1
    simp only [parse_dict, h, if_true]
    exact ih md' c' h1 hT md2 c2 hincl
  · intro md c t k xs rest items h s1 s2 ih1 ih1' ih2 md' c' h1 hT md2 c2 hincl
    simp only [parse_dict, h, Bool.false_eq_true, if_false] at h1
    have hmono1 : mdIncl md s1.1 := get_table_incl simple false md c k t
    have hks1 : hasTbl s1.1 k = true := get_table_hasTbl simple false md c k t
    have hmono2 : mdIncl s1.1 s2.1 := (parse_mono simple).2 s1.1 s1.2 k items
    have hmono3 : mdIncl s2.1 md' := by
      have h0 := (parse_mono simple).1 s2.1 s2.2 t rest
      rw [h1] at h0
      exact h0
    have hk2 : hasTbl md2 k = true :=
      hincl.1 k (hmono3.1 k (hmono2.1 k hks1))
    have ht2 : hasTbl s2.1 t = true := hmono2.1 t (hmono1.1 t hT)
    simp only [parse_dict, h, Bool.false_eq_true, if_false]
    rw [get_table_found simple false c2 t hk2]
    rw [ih1 s2.1 s2.2 rfl hks1 md2 c2 (mdIncl_trans hmono3 hincl)]
    exact ih2 md' c' h1 ht2 md2 c2 hincl
  · intro md c t k v rest hno hna ct hct hce ih md' c' h1 hT md2 c2 hincl
    rw [parse_dict_scalar_eq hno hna] at h1
    simp only [hct, hce, if_true] at h1
    have hmono : mdIncl md md' := by
      have h0 := (parse_mono simple).1 md c t rest
      rw [h1] at h0
      exact h0
    have hce2 : colExists md2 t k = true := hincl.2 t k (hmono.2 t k hce)
    rw [parse_dict_scalar_eq hno hna]
    simp only [hct, hce2, if_true]
    exact ih md' c' h1 hT md2 c2 hincl
  · intro md c t k v rest hno hna ct hct hce ih md' c' h1 hT md2 c2 hincl
    rw [parse_dict_scalar_eq hno hna] at h1
    simp only [hct] at h1
    rw [if_neg hce] at h1
    have hceA : colExists (append_column md t ⟨k, ct, false, none⟩) t k = true :=
      colExists_append_column_self hT _
    have hmono : mdIncl (append_column md t ⟨k, ct, false, none⟩) md' := by
      have h0 := (parse_mono simple).1 (append_column md t ⟨k, ct, false, none⟩) true t rest
      rw [h1] at h0
      exact h0
    have hce2 : colExists md2 t k = true := hincl.2 t k (hmono.2 t k hceA)
    have hTA : hasTbl (append_column md t ⟨k, ct, false, none⟩) t = true := by
      rw [hasTbl_append_column]
      exact hT
    rw [parse_dict_scalar_eq hno hna]
    simp only [hct, hce2, if_true]
    exact ih md' c' h1 hTA md2 c2 hincl
  · intro md c t k v rest hno hna hct ih md' c' h1 hT md2 c2 hincl
    rw [parse_dict_scalar_eq hno hna] at h1
    simp only [hct] at h1
    rw [parse_dict_scalar_eq hno hna]
    simp only [hct]
    exact ih md' c' h1 hT md2 c2 hincl
  · intro md c t md' c' h1 hT md2 c2 hincl
    simp only [parse_items]
  · intro md c t kvs rest s ih1 ih2 md' c' h1 hT md2 c2 hincl
    simp only [parse_items] at h1
    have hmono1 : mdIncl md s.1 := (parse_mono simple).1 md c t kvs
    have hmono2 : mdIncl s.1 md' := by
      have h0 := (parse_mono simple).2 s.1 s.2 t rest
      rw [h1] at h0
      exact h0
    have hts : hasTbl s.1 t = true := hmono1.1 t hT
    simp only [parse_items]
    rw [ih1 s.1 s.2 rfl hT md2 c2 (mdIncl_trans hmono2 hincl)]
    exact ih2 md' c' h1 hts md2 c2 hincl
  · intro md c t hd rest hno ih md' c' h1 hT md2 c2 hincl
    rw [parse_items_skip_eq hno] at h1
    rw [parse_items_skip_eq hno]
    exact ih md' c' h1 hT md2 c2 hincl

/-- C5: rerunning `create_schema` on the same document and options changes
nothing: the catalog is unchanged and the schema-changed flag is false. -/
theorem create_schema_idempotent (md : Metadata) (self_root root_table : String)
    (simple : Bool) (jsonobj : JValue) (md1 : Metadata) (c1 : Bool)
    (h : create_schema md self_root root_table simple jsonobj = some (md1, c1)) :
    create_schema md1 self_root root_table simple jsonobj = some (md1, false) := by
  cases jsonobj with
  | obj kvs =>
    simp only [create_schema, Option.some.injEq] at h ⊢
    by_cases hr : hasTbl md root_table = true
    · rw [if_pos hr] at h
      have hmono : mdIncl md md1 := by
        have h0 := (parse_mono simple).1 md false root_table kvs
        rw [h] at h0
        exact h0
      have hr1 : hasTbl md1 root_table = true := hmono.1 _ hr
      rw [if_pos hr1]
      exact (parse_stab simple).1 md false root_table kvs md1 c1 h hr md1 false
        (mdIncl_refl md1)
    · rw [if_neg hr] at h
      have hrA : hasTbl (addTable md ⟨root_table, [idCol]⟩) root_table = true :=
        hasTbl_addTable_self md _
      have hmono : mdIncl (addTable md ⟨root_table, [idCol]⟩) md1 := by
        have h0 := (parse_mono simple).1 (addTable md ⟨root_table, [idCol]⟩) true root_table kvs
        rw [h] at h0
        exact h0
      have hr1 : hasTbl md1 root_table = true := hmono.1 _ hrA
      rw [if_pos hr1]
      exact (parse_stab simple).1 _ true root_table kvs md1 c1 h hrA md1 false
        (mdIncl_refl md1)
  | arr xs =>
    simp only [create_schema, Option.some.injEq] at h ⊢
    by_cases hr : hasTbl md root_table = true
    · rw [if_pos hr] at h
      have hmono : mdIncl md md1 := by
        have h0 := (parse_mono simple).1 md false root_table [(self_root, JValue.arr xs)]
        rw [h] at h0
        exact h0
      have hr1 : hasTbl md1 root_table = true := hmono.1 _ hr
      rw [if_pos hr1]
      exact (parse_stab simple).1 md false root_table [(self_root, JValue.arr xs)] md1 c1 h hr
        md1 false (mdIncl_refl md1)
    · rw [if_neg hr] at h
      have hrA : hasTbl (addTable md ⟨root_table, [idCol]⟩) root_table = true :=
        hasTbl_addTable_self md _
      have hmono : mdIncl (addTable md ⟨root_table, [idCol]⟩) md1 := by
        have h0 := (parse_mono simple).1 (addTable md ⟨root_table, [idCol]⟩) true root_table
          [(self_root, JValue.arr xs)]
        rw [h] at h0
        exact h0
      have hr1 : hasTbl md1 root_table = true := hmono.1 _ hrA
      rw [if_pos hr1]
      exact (parse_stab simple).1 _ true root_table [(self_root, JValue.arr xs)] md1 c1 h hrA
        md1 false (mdIncl_refl md1)
  | null => simp [create_schema] at h
  | bool b => simp [create_schema] at h
  | int n => simp [create_schema] at h
  | float f => simp [create_schema] at h
  | str s => simp [create_schema] at h
  | date d => simp [create_schema] at h

theorem conv_items_all_obj : ∀ (gvs : String) (xs : List JValue),
    ∀ i ∈ conv_items gvs xs, ∃ kvs, i = JValue.obj kvs ∧ kvs ≠ [] := by
  intro gvs xs
  induction gvs, xs using conv_items.induct with
  | case1 g => simp [conv_items]
  | case2 g kvs rest h ih =>
    intro i hi
    simp only [conv_items, h, if_pos] at hi
    exact ih i hi
  | case3 g kvs rest h ih =>
    intro i hi
    simp only [conv_items, h, if_neg, if_false] at hi
    rcases List.mem_cons.mp hi with rfl | hi
    · exact ⟨kvs, rfl, by simpa [List.isEmpty_iff] using h⟩
    · exact ih i hi
  | case4 g ys rest h ih =>
    intro i hi
    simp only [conv_items, h, if_pos] at hi
    exact ih i hi
  | case5 g ys rest h ih1 ih2 =>
    intro i hi
    simp only [conv_items, h, if_neg, if_false] at hi
    rcases List.mem_append.mp hi with hi | hi
    · exact ih1 i hi
    · exact ih2 i hi
  | case6 g s rest h ih =>
    intro i hi
    simp only [conv_items, h, if_pos] at hi
    exact ih i hi
  | case7 g s rest h ih =>
    intro i hi
    simp only [conv_items, h, if_neg, if_false] at hi
    rcases List.mem_cons.mp hi with rfl | hi
    · exact ⟨[(g, JValue.str s)], rfl, by simp⟩
    · exact ih i hi
  | case8 g f rest ih =>
    intro i hi
    simp only [conv_items] at hi
    rcases List.mem_cons.mp hi with rfl | hi
    · exact ⟨[(g, JValue.float f)], rfl, by simp⟩
    · exact ih i hi
  | case9 g n rest ih =>
    intro i hi
    simp only [conv_items] at hi
    rcases List.mem_cons.mp hi with rfl | hi
    · exact ⟨[(g, JValue.int n)], rfl, by simp⟩
    · exact ih i hi
  | case10 g b rest ih =>
    intro i hi
    simp only [conv_items] at hi
    rcases List.mem_cons.mp hi with rfl | hi
    · exact ⟨[(g, JValue.bool b)], rfl, by simp⟩
    · exact ih i hi
  | case11 g rest ih =>
    intro i hi
    simp only [conv_items] at hi
    exact ih i hi
  | case12 g d rest ih =>
    intro i hi
    simp only [conv_items] at hi
    exact ih i hi

/-- C10: `convert_to_dicts` recursively flattens non-empty nested lists into
the parent list, drops nulls, empty inner lists, empty dicts and empty
strings, and every element it emits is a non-empty dict (so a list of lists
feeds a single child table rather than a chain of nested tables). -/
theorem convert_to_dicts_flattens :
    (∀ (gvs : String) (ys rest : List JValue), ys ≠ [] →
       convert_to_dicts (JValue.arr (JValue.arr ys :: rest)) gvs =
       JValue.arr (conv_items "val" ys ++ conv_items gvs rest))
  ∧ (∀ (gvs : String) (rest : List JValue),
       convert_to_dicts (JValue.arr (JValue.null :: rest)) gvs =
       convert_to_dicts (JValue.arr rest) gvs)
  ∧ (∀ (gvs : String) (rest : List JValue),
       convert_to_dicts (JValue.arr (JValue.arr [] :: rest)) gvs =
       convert_to_dicts (JValue.arr rest) gvs)
  ∧ (∀ (gvs : String) (rest : List JValue),
       convert_to_dicts (JValue.arr (JValue.obj [] :: rest)) gvs =
       convert_to_dicts (JValue.arr rest) gvs)
  ∧ (∀ (gvs : String) (rest : List JValue),
       convert_to_dicts (JValue.arr (JValue.str "" :: rest)) gvs =
       convert_to_dicts (JValue.arr rest) gvs)
  ∧ (∀ (gvs : String) (xs : List JValue), ∀ i ∈ conv_items gvs xs,
       ∃ kvs, i = JValue.obj kvs ∧ kvs ≠ []) := by
  refine ⟨?_, ?_, ?_, ?_, ?_, conv_items_all_obj⟩
  · intro gvs ys rest h
    have h' : ys.isEmpty = false := by
      cases ys with
      | nil => exact absurd rfl h
      | cons a l => rfl
    simp [convert_to_dicts, conv_items, h']
  · intro gvs rest
    simp [convert_to_dicts, conv_items]
  · intro gvs rest
    simp [convert_to_dicts, conv_items]
  · intro gvs rest
    simp [convert_to_dicts, conv_items]
  · intro gvs rest
    simp only [convert_to_dicts, conv_items]
    rw [if_pos (by decide)]

/-- Witness for C10: a nested list with a null, evaluated concretely. -/
theorem convert_to_dicts_flattens_witness :
    convert_to_dicts (JValue.arr [JValue.arr [JValue.int 1, JValue.null], JValue.str "a"]) "val" =
      JValue.arr [JValue.obj [("val", JValue.int 1)], JValue.obj [("val", JValue.str "a")]] := by
  have h := convert_to_dicts_flattens.1 "val" [JValue.int 1, JValue.null] [JValue.str "a"]
    (by decide)
  rw [h]
  simp only [conv_items]
  rw [if_neg (by decide)]
  simp

/-- A list element that `convert_to_dicts` wraps as a single-key dict: a
non-empty string, an int, a float, or a bool. -/
def is_wrap_scalar : JValue → Bool
  | .str s => !s.isEmpty
  | .int _ => true
  | .float _ => true
  | .bool _ => true
  | _ => false

theorem conv_items_wraps (gvs : String) :
    ∀ vals : List JValue, (∀ v ∈ vals, is_wrap_scalar v = true) →
      conv_items gvs vals = vals.map (fun v => JValue.obj [(gvs, v)]) := by
  intro vals h
  induction vals with
  | nil => simp [conv_items]
  | cons v rest ih =>
    have hv := h v (by simp)
    have hr := ih (fun x hx => h x (by simp [hx]))
    cases v with
    | str s =>
      simp only [is_wrap_scalar, Bool.not_eq_true'] at hv
      simp only [conv_items, hv, Bool.false_eq_true, if_false, hr, List.map_cons]
    | int n => simp only [conv_items, hr, List.map_cons]
    | float f => simp only [conv_items, hr, List.map_cons]
    | bool b => simp only [conv_items, hr, List.map_cons]
    | null => simp [is_wrap_scalar] at hv
    | date d => simp [is_wrap_scalar] at hv
    | arr xs => simp [is_wrap_scalar] at hv
    | obj kvs => simp [is_wrap_scalar] at hv

/-- C4 (as stated, refuted): the wrapper key is `"val"`, not `"value"`, and
the table created for a list of scalars carries the synthetic column `val`,
not `value`. -/
theorem scalar_wrapper_key_counterexample :
    convert_to_dicts (JValue.arr [JValue.str "x", JValue.str "y"]) "val" =
      JValue.arr [JValue.obj [("val", JValue.str "x")], JValue.obj [("val", JValue.str "y")]] ∧
    convert_to_dicts (JValue.arr [JValue.str "x", JValue.str "y"]) "val" ≠
      JValue.arr [JValue.obj [("value", JValue.str "x")], JValue.obj [("value", JValue.str "y")]] ∧
    create_schema [] "main" "main" false
        (JValue.obj [("tags", JValue.arr [JValue.str "x", JValue.str "y"])]) =
      some ([⟨"main", [idCol]⟩,
             ⟨"bridge_main_tags", [fkCol "main", fkCol "tags"]⟩,
             ⟨"tags", [idCol, ⟨"val", CType.string, false, none⟩]⟩], true) ∧
    colExists [⟨"main", [idCol]⟩,
               ⟨"bridge_main_tags", [fkCol "main", fkCol "tags"]⟩,
               ⟨"tags", [idCol, ⟨"val", CType.string, false, none⟩]⟩] "tags" "val" = true ∧
    colExists [⟨"main", [idCol]⟩,
               ⟨"bridge_main_tags", [fkCol "main", fkCol "tags"]⟩,
               ⟨"tags", [idCol, ⟨"val", CType.string, false, none⟩]⟩] "tags" "value" = false := by
  have hx : ("x" : String).isEmpty = false := rfl
  have hy : ("y" : String).isEmpty = false := rfl
  refine ⟨?_, ?_, ?_, by decide, by decide⟩
  · simp [convert_to_dicts, conv_items, hx, hy]
  · simp [convert_to_dicts, conv_items, hx, hy]
  · simp [create_schema, parse_dict, parse_items, conv_items, get_table,
      create_many_to_many, addTable, hasTbl, findTbl, colExists, append_column,
      scalar_col_type, mergeCols, fkCol, idCol, List.find?, hx, hy]

/-- C4 (amended): every surviving non-object list element is wrapped as a
single-key dict keyed `"val"` (the default `generic_value_string`), so the
table created for a list of scalars carries one synthetic column named
`val`. -/
theorem scalar_wrapper_key_val :
    (∀ vals : List JValue, (∀ v ∈ vals, is_wrap_scalar v = true) →
       convert_to_dicts (JValue.arr vals) "val" =
       JValue.arr (vals.map (fun v => JValue.obj [("val", v)])))
  ∧ (∀ s1 s2 : String, s1.isEmpty = false → s2.isEmpty = false →
       create_schema [] "main" "main" false
           (JValue.obj [("tags", JValue.arr [JValue.str s1, JValue.str s2])]) =
         some ([⟨"main", [idCol]⟩,
                ⟨"bridge_main_tags", [fkCol "main", fkCol "tags"]⟩,
                ⟨"tags", [idCol, ⟨"val", CType.string, false, none⟩]⟩], true)) := by
  constructor
  · intro vals h
    simp only [convert_to_dicts]
    rw [conv_items_wraps "val" vals h]
  · intro s1 s2 h1 h2
    simp [create_schema, parse_dict, parse_items, conv_items, get_table,
      create_many_to_many, addTable, hasTbl, findTbl, colExists, append_column,
      scalar_col_type, mergeCols, fkCol, idCol, List.find?, h1, h2]

/-- Witness for the amended C4 at the concrete input from the spec. -/
theorem scalar_wrapper_key_val_witness :
    convert_to_dicts (JValue.arr [JValue.str "x", JValue.str "y"]) "val" =
      JValue.arr [JValue.obj [("val", JValue.str "x")], JValue.obj [("val", JValue.str "y")]] ∧
    create_schema [] "main" "main" false
        (JValue.obj [("tags", JValue.arr [JValue.str "x", JValue.str "y"])]) =
      some ([⟨"main", [idCol]⟩,
             ⟨"bridge_main_tags", [fkCol "main", fkCol "tags"]⟩,
             ⟨"tags", [idCol, ⟨"val", CType.string, false, none⟩]⟩], true) :=
  ⟨scalar_wrapper_key_val.1 [JValue.str "x", JValue.str "y"] (by decide),
   scalar_wrapper_key_val.2 "x" "y" rfl rfl⟩

/-- Witness for C5 at a concrete document: the second run of
`create_schema` leaves the catalog untouched and reports no change. -/
theorem create_schema_idempotent_witness :
    create_schema [⟨"main", [idCol, ⟨"x", CType.integer, false, none⟩]⟩] "main" "main" false
      (JValue.obj [("x", JValue.int 1)]) =
    some ([⟨"main", [idCol, ⟨"x", CType.integer, false, none⟩]⟩], false) :=
  create_schema_idempotent [] "main" "main" false (JValue.obj [("x", JValue.int 1)])
    [⟨"main", [idCol, ⟨"x", CType.integer, false, none⟩]⟩] true
    (by simp [create_schema, parse_dict, get_table, hasTbl, findTbl, colExists, addTable,
      append_column, scalar_col_type, idCol, mergeCols, List.find?])

/-- C7: for a fresh key `k` holding a non-empty list, default mode creates
the child table (only the `_id` primary key) plus the bridge table
`bridge_<parent>_<k>` holding exactly the two foreign-key columns
`<parent>_id` and `<k>_id` and no primary key; simple mode instead creates
the child table with a direct `<parent>_id` foreign-key column and creates
no table other than the child (no bridge).  `get_table` with
`simple_reltype = false` is exactly the path `parse_dict` takes for a
non-empty converted list value. -/
theorem list_relationship_tables (md : Metadata) (c : Bool) (k parent : String)
    (hk : hasTbl md k = false)
    (hb : hasTbl md ("bridge_" ++ parent ++ "_" ++ k) = false) :
    findTbl (get_table false false md c k parent).1 ("bridge_" ++ parent ++ "_" ++ k) =
      some ⟨"bridge_" ++ parent ++ "_" ++ k, [fkCol parent, fkCol k]⟩ ∧
    findTbl (get_table false false md c k parent).1 k = some ⟨k, [idCol]⟩ ∧
    (get_table false false md c k parent).2 = true ∧
    (∀ col ∈ [fkCol parent, fkCol k], col.primary_key = false ∧ col.foreign_key ≠ none) ∧
    findTbl (get_table true false md c k parent).1 k = some ⟨k, [idCol, fkCol parent]⟩ ∧
    (∀ n, hasTbl (get_table true false md c k parent).1 n = true →
       hasTbl md n = true ∨ n = k) := by
  have hbk : ("bridge_" ++ parent ++ "_" ++ k) ≠ k := by
    intro heq
    have hlen := congrArg String.length heq
    simp only [String.length_append] at hlen
    have h7 : ("bridge_" : String).length = 7 := rfl
    have h1 : ("_" : String).length = 1 := rfl
    omega
  have hA : addTable md ⟨"bridge_" ++ parent ++ "_" ++ k, [fkCol parent, fkCol k]⟩ =
      md ++ [⟨"bridge_" ++ parent ++ "_" ++ k, [fkCol parent, fkCol k]⟩] := by
    unfold addTable
    rw [if_neg (by simp [hb])]
  have hAk : hasTbl (addTable md ⟨"bridge_" ++ parent ++ "_" ++ k, [fkCol parent, fkCol k]⟩)
      k = false := by
    rw [hA, hasTbl_append, hk]
    simp only [Bool.false_or, hasTbl, findTbl_cons]
    rw [if_neg hbk]
    rfl
  have hgt : get_table false false md c k parent =
      (create_many_to_many md k parent, true) := by
    unfold get_table
    rw [if_neg (by simp [hk])]
    rfl
  have hgt2 : get_table true false md c k parent =
      (create_one_to_many md k parent, true) := by
    unfold get_table
    rw [if_neg (by simp [hk])]
    rfl
  have hBfresh : addTable (addTable md ⟨"bridge_" ++ parent ++ "_" ++ k,
      [fkCol parent, fkCol k]⟩) ⟨k, [idCol]⟩ =
      (addTable md ⟨"bridge_" ++ parent ++ "_" ++ k, [fkCol parent, fkCol k]⟩) ++
        [⟨k, [idCol]⟩] :=
    addTable_fresh_eq hAk
  refine ⟨?_, ?_, ?_, ?_, ?_, ?_⟩
  · rw [hgt]
    unfold create_many_to_many
    rw [hBfresh, findTbl_append_single hbk]
    exact findTbl_addTable_fresh hb
  · rw [hgt]
    unfold create_many_to_many
    exact findTbl_addTable_fresh hAk
  · rw [hgt]
  · intro col hcol
    rcases List.mem_cons.mp hcol with rfl | hcol
    · exact ⟨rfl, by simp [fkCol]⟩
    · rcases List.mem_cons.mp hcol with rfl | hcol
      · exact ⟨rfl, by simp [fkCol]⟩
      · simp at hcol
  · rw [hgt2]
    unfold create_one_to_many
    exact findTbl_addTable_fresh hk
  · intro n hn
    rw [hgt2] at hn
    unfold create_one_to_many at hn
    exact hasTbl_addTable_inv hn

/-- Witness for C7 at a concrete catalog. -/
theorem list_relationship_tables_witness :
    findTbl (get_table false false [⟨"main", [idCol]⟩] false "tags" "main").1
      "bridge_main_tags" = some ⟨"bridge_main_tags", [fkCol "main", fkCol "tags"]⟩ ∧
    findTbl (get_table false false [⟨"main", [idCol]⟩] false "tags" "main").1 "tags" =
      some ⟨"tags", [idCol]⟩ ∧
    findTbl (get_table true false [⟨"main", [idCol]⟩] false "tags" "main").1 "tags" =
      some ⟨"tags", [idCol, fkCol "main"]⟩ := by
  have h := list_relationship_tables [⟨"main", [idCol]⟩] false "tags" "main"
    (by decide) (by decide)
  exact ⟨h.1, h.2.1, h.2.2.2.2.1⟩

/-- C8 (as stated, refuted): `parse_dict` uses keys verbatim — an uppercase
key yields an uppercase column or table name (nothing is case-folded), and
an empty-string key is not skipped: it creates a column named `""`. -/
theorem key_casefold_counterexample :
    colExists (parse_dict false [⟨"main", [idCol]⟩] false "main"
        [("A", JValue.int 1)]).1 "main" "A" = true ∧
    colExists (parse_dict false [⟨"main", [idCol]⟩] false "main"
        [("A", JValue.int 1)]).1 "main" "a" = false ∧
    colExists (parse_dict false [⟨"main", [idCol]⟩] false "main"
        [("", JValue.int 1)]).1 "main" "" = true ∧
    hasTbl (parse_dict false [⟨"main", [idCol]⟩] false "main"
        [("B", JValue.obj [("x", JValue.int 1)])]).1 "B" = true ∧
    hasTbl (parse_dict false [⟨"main", [idCol]⟩] false "main"
        [("B", JValue.obj [("x", JValue.int 1)])]).1 "b" = false := by
  refine ⟨?_, ?_, ?_, ?_, ?_⟩ <;>
    simp [parse_dict, get_table, create_many_to_one, addTable, hasTbl, findTbl,
      colExists, append_column, scalar_col_type, mergeCols, fkCol, idCol, List.find?]

/-- C8 (amended): keys are used verbatim as identifiers.  A scalar value
under a new key `k` — any string, including the empty string and mixed-case
strings — appends a column named exactly `k`; and the table `get_table`
guarantees for a key `k` is named exactly `k`. -/
theorem key_used_verbatim :
    (∀ (simple : Bool) (md : Metadata) (c : Bool) (tname k : String) (v : JValue)
       (ct : CType), scalar_col_type v = some ct → colExists md tname k = false →
       parse_dict simple md c tname [(k, v)] =
         (append_column md tname ⟨k, ct, false, none⟩, true))
  ∧ (∀ (simple rt : Bool) (md : Metadata) (c : Bool) (k parent : String),
       hasTbl (get_table simple rt md c k parent).1 k = true) := by
  constructor
  · intro simple md c tname k v ct hct hce
    have hno : ∀ kvs, v = JValue.obj kvs → False := by
      intro kvs hv
      rw [hv] at hct
      simp [scalar_col_type] at hct
    have hna : ∀ xs, v = JValue.arr xs → False := by
      intro xs hv
      rw [hv] at hct
      simp [scalar_col_type] at hct
    rw [parse_dict_scalar_eq hno hna]
    simp only [hct, hce, Bool.false_eq_true, if_false]
    simp only [parse_dict]
  · intro simple rt md c k parent
    exact get_table_hasTbl simple rt md c k parent

/-- Witness for the amended C8: an uppercase key and the empty-string key
each become a column of that exact name. -/
theorem key_used_verbatim_witness :
    parse_dict false [⟨"main", [idCol]⟩] false "main" [("A", JValue.int 1)] =
      (append_column [⟨"main", [idCol]⟩] "main" ⟨"A", CType.integer, false, none⟩, true) ∧
    parse_dict false [⟨"main", [idCol]⟩] false "main" [("", JValue.int 1)] =
      (append_column [⟨"main", [idCol]⟩] "main" ⟨"", CType.integer, false, none⟩, true) ∧
    hasTbl (get_table false false [⟨"main", [idCol]⟩] false "Tags" "main").1 "Tags" = true :=
  ⟨key_used_verbatim.1 false [⟨"main", [idCol]⟩] false "main" "A" (JValue.int 1)
      CType.integer rfl (by decide),
   key_used_verbatim.1 false [⟨"main", [idCol]⟩] false "main" "" (JValue.int 1)
      CType.integer rfl (by decide),
   key_used_verbatim.2 false false [⟨"main", [idCol]⟩] false "Tags" "main"⟩

/-- A JSON value the object mapper treats as a scalar field candidate:
neither null nor a list nor a dict. -/
def is_scalar_value : JValue → Bool
  | .null => false
  | .arr _ => false
  | .obj _ => false
  | _ => true

theorem mro_fields_scalar_step {v : JValue} (hs : is_scalar_value v = true)
    {hasCol : String → String → Bool} {simple : Bool} {qfail : String → Row → Bool}
    {name : String} {skip_empty : Bool} {sess : Sess} {pre : Row}
    {coll : List (String × List (Option Row))} {k : String}
    {rest : List (String × JValue)} :
    mro_fields hasCol simple qfail name skip_empty sess pre coll ((k, v) :: rest) =
      (if hasCol name k then
        mro_fields hasCol simple qfail name skip_empty sess (assocSet pre k v) coll rest
       else mro_fields hasCol simple qfail name skip_empty sess pre coll rest) := by
  cases v with
  | null => simp [is_scalar_value] at hs
  | arr xs => simp [is_scalar_value] at hs
  | obj kvs => simp [is_scalar_value] at hs
  | bool b => simp [mro_fields, assocSet]
  | int n => simp [mro_fields, assocSet]
  | float f => simp [mro_fields, assocSet]
  | str s => simp [mro_fields, assocSet]
  | date d => simp [mro_fields, assocSet]

/-- C2 (as stated, refuted): neither pass renames `_id` to `id`.  Schema
inference leaves the catalog untouched (the `_id` column already exists, so
the key is skipped — no `id` column appears), and the object mapper passes
a user-supplied `_id` straight into the row's fields, populating the
synthetic primary-key column from user JSON. -/
theorem underscore_id_rename_counterexample :
    parse_dict false [⟨"main", [idCol]⟩] false "main" [("_id", JValue.int 5)] =
      ([⟨"main", [idCol]⟩], false) ∧
    colExists (parse_dict false [⟨"main", [idCol]⟩] false "main"
        [("_id", JValue.int 5)]).1 "main" "id" = false ∧
    make_relational_obj (fun _ _ => true) false (fun _ _ => false) "main"
        (JValue.obj [("_id", JValue.int 5)]) true ⟨[], []⟩ =
      Except.ok (some [("_id", JValue.int 5)], ⟨[], [("main", [("_id", JValue.int 5)])]⟩) ∧
    assocGet [("_id", JValue.int 5)] "_id" = some (JValue.int 5) ∧
    assocGet [("_id", JValue.int 5)] "id" = none := by
  refine ⟨?_, ?_, ?_, by decide, by decide⟩
  · simp [parse_dict, colExists, findTbl, scalar_col_type, idCol, List.find?]
  · simp [parse_dict, colExists, findTbl, scalar_col_type, idCol, List.find?]
  · simp [make_relational_obj, mro_fields, assocSet, queryFirst, rowsOf, rowMatches,
      assocGet, List.find?]

/-- C2 (amended): no renaming of `_id` happens in either pass.  In schema
inference a `(\"_id\", scalar)` pair is skipped whenever the table already
has an `_id` column (which every table created by the importer does), and
the walk continues on the remaining keys unchanged; in the object mapper a
`(\"_id\", scalar)` pair flows into `pre_ormobjc` under the key `_id`
whenever the mapped class has that attribute, so the synthetic primary key
is populated from user JSON. -/
theorem underscore_id_not_renamed :
    (∀ (simple : Bool) (md : Metadata) (c : Bool) (tname : String) (v : JValue)
       (ct : CType) (rest : List (String × JValue)),
       scalar_col_type v = some ct → colExists md tname "_id" = true →
       parse_dict simple md c tname (("_id", v) :: rest) =
         parse_dict simple md c tname rest)
  ∧ (∀ (hasCol : String → String → Bool) (simple : Bool) (qfail : String → Row → Bool)
       (name : String) (skip_empty : Bool) (sess : Sess) (pre : Row)
       (coll : List (String × List (Option Row))) (v : JValue)
       (rest : List (String × JValue)),
       is_scalar_value v = true → hasCol name "_id" = true →
       mro_fields hasCol simple qfail name skip_empty sess pre coll (("_id", v) :: rest) =
         mro_fields hasCol simple qfail name skip_empty sess (assocSet pre "_id" v) coll rest) := by
  constructor
  · intro simple md c tname v ct rest hct hce
    have hno : ∀ kvs, v = JValue.obj kvs → False := by
      intro kvs hv
      rw [hv] at hct
      simp [scalar_col_type] at hct
    have hna : ∀ xs, v = JValue.arr xs → False := by
      intro xs hv
      rw [hv] at hct
      simp [scalar_col_type] at hct
    rw [parse_dict_scalar_eq hno hna]
    simp only [hct, hce, if_true]
  · intro hasCol simple qfail name skip_empty sess pre coll v rest hs hcol
    rw [mro_fields_scalar_step hs]
    rw [if_pos hcol]

/-- Witness for the amended C2 at concrete inputs. -/
theorem underscore_id_not_renamed_witness :
    parse_dict false [⟨"main", [idCol]⟩] false "main" [("_id", JValue.int 5)] =
      parse_dict false [⟨"main", [idCol]⟩] false "main" [] ∧
    mro_fields (fun _ _ => true) false (fun _ _ => false) "main" true ⟨[], []⟩ [] []
        [("_id", JValue.int 5)] =
      mro_fields (fun _ _ => true) false (fun _ _ => false) "main" true ⟨[], []⟩
        (assocSet [] "_id" (JValue.int 5)) [] [] :=
  ⟨underscore_id_not_renamed.1 false [⟨"main", [idCol]⟩] false "main" (JValue.int 5)
      CType.integer [] rfl (by decide),
   underscore_id_not_renamed.2 (fun _ _ => true) false (fun _ _ => false) "main" true
      ⟨[], []⟩ [] [] (JValue.int 5) [] rfl rfl⟩

/-- Whether a JSON value is a dict (`isinstance(objc, dict)`). -/
def is_dict : JValue → Bool
  | .obj _ => true
  | _ => false

/-- C9 (as stated, refuted): an object whose only field is pruned (an empty
list) still produces a row object — `make_relational_obj` returns it and
stages a row with no scalar fields — rather than aborting with null. -/
theorem empty_scalar_fields_counterexample :
    make_relational_obj (fun _ _ => true) false (fun _ _ => false) "main"
        (JValue.obj [("a", JValue.arr [])]) true ⟨[], []⟩ =
      Except.ok (some [], ⟨[], [("main", [])]⟩) := by
  simp [make_relational_obj, mro_fields, queryFirst, rowsOf, rowMatches, List.find?]

/-- C9 (amended): `make_relational_obj` returns null exactly for non-dict
or empty-dict input (leaving the session untouched); for any non-empty dict
that it maps successfully it always returns a row object — even when every
field was pruned away — never null. -/
theorem mro_null_only_for_empty :
    (∀ (hasCol : String → String → Bool) (simple : Bool) (qfail : String → Row → Bool)
       (name : String) (skip_empty : Bool) (sess : Sess) (v : JValue),
       is_dict v = false →
       make_relational_obj hasCol simple qfail name v skip_empty sess =
         Except.ok (none, sess))
  ∧ (∀ (hasCol : String → String → Bool) (simple : Bool) (qfail : String → Row → Bool)
       (name : String) (skip_empty : Bool) (sess : Sess),
       make_relational_obj hasCol simple qfail name (JValue.obj []) skip_empty sess =
         Except.ok (none, sess))
  ∧ (∀ (hasCol : String → String → Bool) (simple : Bool) (qfail : String → Row → Bool)
       (name : String) (skip_empty : Bool) (sess : Sess)
       (kvs : List (String × JValue)) (r : Option Row) (s' : Sess),
       kvs ≠ [] →
       make_relational_obj hasCol simple qfail name (JValue.obj kvs) skip_empty sess =
         Except.ok (r, s') →
       r.isSome = true) := by
  refine ⟨?_, ?_, ?_⟩
  · intro hasCol simple qfail name skip_empty sess v hv
    cases v with
    | obj kvs => simp [is_dict] at hv
    | null => simp [make_relational_obj]
    | bool b => simp [make_relational_obj]
    | int n => simp [make_relational_obj]
    | float f => simp [make_relational_obj]
    | str s => simp [make_relational_obj]
    | date d => simp [make_relational_obj]
    | arr xs => simp [make_relational_obj]
  · intro hasCol simple qfail name skip_empty sess
    simp [make_relational_obj]
  · intro hasCol simple qfail name skip_empty sess kvs r s' hne h
    have hke : kvs.isEmpty = false := by
      cases kvs with
      | nil => exact absurd rfl hne
      | cons a l => rfl
    simp only [make_relational_obj, hke, Bool.false_eq_true, if_false] at h
    rcases hf : mro_fields hasCol simple qfail name skip_empty sess [] [] kvs with e | p
    · rw [hf] at h
      simp at h
    · rw [hf] at h
      obtain ⟨pre, coll, s1⟩ := p
      simp only [] at h
      cases simple with
      | true =>
        simp only [Bool.not_true, Bool.false_eq_true, if_false] at h
        cases h
        rfl
      | false =>
        simp only [Bool.not_false, if_true] at h
        by_cases hq : qfail name pre = true
        · rw [if_pos hq] at h
          simp at h
        · rw [if_neg hq] at h
          rcases hqf : queryFirst s1 name pre with _ | r0
          · rw [hqf] at h
            cases h
            rfl
          · rw [hqf] at h
            cases h
            rfl

/-- Witness for the amended C9 at concrete inputs. -/
theorem mro_null_only_for_empty_witness :
    make_relational_obj (fun _ _ => true) false (fun _ _ => false) "main" (JValue.int 3)
        true ⟨[], []⟩ = Except.ok (none, (⟨[], []⟩ : Sess)) ∧
    make_relational_obj (fun _ _ => true) false (fun _ _ => false) "main" (JValue.obj [])
        true ⟨[], []⟩ = Except.ok (none, (⟨[], []⟩ : Sess)) ∧
    (some ([] : Row)).isSome = true :=
  ⟨mro_null_only_for_empty.1 (fun _ _ => true) false (fun _ _ => false) "main" true
      ⟨[], []⟩ (JValue.int 3) rfl,
   mro_null_only_for_empty.2.1 (fun _ _ => true) false (fun _ _ => false) "main" true ⟨[], []⟩,
   mro_null_only_for_empty.2.2 (fun _ _ => true) false (fun _ _ => false) "main" true
      ⟨[], []⟩ [("a", JValue.arr [])] (some []) ⟨[], [("main", [])]⟩ (by decide)
      (by simp [make_relational_obj, mro_fields, queryFirst, rowsOf, rowMatches, List.find?])⟩

/-- C1 (as stated, refuted): when the commit raises, `insert_data_to_schema`
rolls back but returns normally — the exception is caught (and only a
traceback is printed), so no error is surfaced to the caller. -/
theorem commit_failure_surfaced_counterexample :
    insert_data_to_schema (fun _ _ => true) false (fun _ _ => false) "main" false []
        (JValue.obj [("x", JValue.int 1)]) = InsertOutcome.ok [] ∧
    surfaced (insert_data_to_schema (fun _ _ => true) false (fun _ _ => false) "main" false []
        (JValue.obj [("x", JValue.int 1)])) = false := by
  constructor <;>
    simp [insert_data_to_schema, wrap_root, make_relational_obj, mro_fields, assocSet,
      queryFirst, rowsOf, rowMatches, List.find?, surfaced]

/-- C1 (amended): when committing the insertion transaction raises, the
transaction is rolled back — the database is exactly what it was before the
call, no partial document commit — but the exception is caught inside
`insert_data_to_schema` (a traceback is printed) and the call returns
normally; no error is surfaced to the caller. -/
theorem commit_failure_rollback_swallowed
    (hasCol : String → String → Bool) (simple : Bool) (qfail : String → Row → Bool)
    (self_root : String) (db : List (String × Row)) (jsonobj : JValue)
    (p : Option Row × Sess)
    (h : make_relational_obj hasCol simple qfail self_root
        (wrap_root self_root jsonobj) true ⟨db, []⟩ = Except.ok p) :
    insert_data_to_schema hasCol simple qfail self_root false db jsonobj =
      InsertOutcome.ok db ∧
    surfaced (insert_data_to_schema hasCol simple qfail self_root false db jsonobj) =
      false := by
  obtain ⟨r, sess⟩ := p
  have he : insert_data_to_schema hasCol simple qfail self_root false db jsonobj =
      InsertOutcome.ok db := by
    unfold insert_data_to_schema
    rw [h]
    rfl
  exact ⟨he, by rw [he]; rfl⟩


/-- Witness for the amended C1 at a concrete document and failing commit. -/
theorem commit_failure_rollback_swallowed_witness :
    insert_data_to_schema (fun _ _ => true) false (fun _ _ => false) "main" false
        [("other", [("y", JValue.int 2)])] (JValue.obj [("x", JValue.int 1)]) =
      InsertOutcome.ok [("other", [("y", JValue.int 2)])] :=
  (commit_failure_rollback_swallowed (fun _ _ => true) false (fun _ _ => false) "main"
    [("other", [("y", JValue.int 2)])] (JValue.obj [("x", JValue.int 1)])
    (some [("x", JValue.int 1)],
      ⟨[("other", [("y", JValue.int 2)])], [("main", [("x", JValue.int 1)])]⟩)
    (by simp [wrap_root, make_relational_obj, mro_fields, assocSet, queryFirst, rowsOf,
      rowMatches, List.find?, assocGet])).1

/-- C3 (as stated, refuted): an exception from the deduplication lookup
propagates out of `insert_data_to_schema` — the query is not wrapped in
try/except, the row is not inserted, and the caller sees the exception. -/
theorem dedup_query_error_counterexample :
    insert_data_to_schema (fun _ _ => true) false (fun _ _ => true) "main" true []
        (JValue.obj [("x", JValue.int 1)]) = InsertOutcome.raised [] ∧
    surfaced (insert_data_to_schema (fun _ _ => true) false (fun _ _ => true) "main" true []
        (JValue.obj [("x", JValue.int 1)])) = true := by
  constructor <;>
    simp [insert_data_to_schema, wrap_root, make_relational_obj, mro_fields, assocSet,
      surfaced]

/-- C3 (amended): in non-simple mode, when the deduplication lookup raises,
the exception propagates out of `insert_data_to_schema` (only
`session.commit()` is wrapped in try/except): the engine does not fall back
to inserting the row, and the database is left unchanged. -/
theorem dedup_query_error_propagates
    (hasCol : String → String → Bool) (qfail : String → Row → Bool)
    (self_root : String) (commitOk : Bool) (db : List (String × Row))
    (kvs : List (String × JValue)) (pre : Row)
    (coll : List (String × List (Option Row))) (s1 : Sess)
    (hne : kvs ≠ [])
    (hf : mro_fields hasCol false qfail self_root true ⟨db, []⟩ [] [] kvs =
      Except.ok (pre, coll, s1))
    (hq : qfail self_root pre = true) :
    insert_data_to_schema hasCol false qfail self_root commitOk db (JValue.obj kvs) =
      InsertOutcome.raised db ∧
    surfaced (insert_data_to_schema hasCol false qfail self_root commitOk db
      (JValue.obj kvs)) = true := by
  have hke : kvs.isEmpty = false := by
    cases kvs with
    | nil => exact absurd rfl hne
    | cons a l => rfl
  have he : insert_data_to_schema hasCol false qfail self_root commitOk db
      (JValue.obj kvs) = InsertOutcome.raised db := by
    unfold insert_data_to_schema
    simp only [wrap_root, make_relational_obj, hke, Bool.false_eq_true, if_false, hf,
      Bool.not_false, if_true, hq]
  exact ⟨he, by rw [he]; rfl⟩

/-- Witness for the amended C3 at a concrete document and failing query. -/
theorem dedup_query_error_propagates_witness :
    insert_data_to_schema (fun _ _ => true) false (fun _ _ => true) "main" true []
        (JValue.obj [("x", JValue.int 1)]) = InsertOutcome.raised [] :=
  (dedup_query_error_propagates (fun _ _ => true) (fun _ _ => true) "main" true []
    [("x", JValue.int 1)] [("x", JValue.int 1)] [] ⟨[], []⟩ (by decide)
    (by simp [mro_fields, assocSet]) rfl).1

/-- The scalar fields (`pre_ormobjc`) gathered by the `make_relational_obj`
loop over a flat object: each scalar value is kept under its key when the
mapped class has that attribute. -/
def scalar_fields (hasCol : String → String → Bool) (name : String) (pre : Row) :
    List (String × JValue) → Row
  | [] => pre
  | (k, v) :: rest =>
    if hasCol name k then scalar_fields hasCol name (assocSet pre k v) rest
    else scalar_fields hasCol name pre rest

theorem mro_fields_scalars {hasCol : String → String → Bool} {simple : Bool}
    {qfail : String → Row → Bool} {name : String} {skip_empty : Bool} {suspended : Sess}
    {coll : List (String × List (Option Row))} {kvs : List (String × JValue)}
    (h : ∀ kv ∈ kvs, is_scalar_value kv.2 = true) :
    ∀ pre : Row,
      mro_fields hasCol simple qfail name skip_empty suspended pre coll kvs =
        Except.ok (scalar_fields hasCol name pre kvs, coll, suspended) := by
  induction kvs with
  | nil => intro pre; simp [mro_fields, scalar_fields]
  | cons kv rest ih =>
    intro pre
    obtain ⟨k, v⟩ := kv
    rw [mro_fields_scalar_step (h (k, v) (by simp))]
    by_cases hc : hasCol name k
    · rw [if_pos hc, ih (fun z hz => h z (by simp [hz]))]
      simp [scalar_fields, hc]
    · rw [if_neg hc, ih (fun z hz => h z (by simp [hz]))]
      simp [scalar_fields, hc]

theorem assocSet_keys (l : List (String × JValue)) (k : String) (v : JValue) :
    (assocSet l k v).map Prod.fst =
      if l.any (fun p => p.1 = k) then l.map Prod.fst else l.map Prod.fst ++ [k] := by
  unfold assocSet
  by_cases h : l.any (fun p => p.1 = k) = true
  · rw [if_pos h, if_pos h, List.map_map]
    refine List.map_congr_left ?_
    intro p _
    by_cases hp : p.1 = k <;> simp [hp]
  · rw [if_neg h, if_neg h]
    simp

theorem assocSet_nodup {l : List (String × JValue)} {k : String} {v : JValue}
    (h : (l.map Prod.fst).Nodup) : ((assocSet l k v).map Prod.fst).Nodup := by
  rw [assocSet_keys]
  by_cases ha : l.any (fun p => p.1 = k) = true
  · rw [if_pos ha]
    exact h
  · rw [if_neg ha]
    rw [List.nodup_append]
    refine ⟨h, List.nodup_singleton k, ?_⟩
    intro x hx hk
    simp only [List.mem_singleton] at hk
    subst hk
    rcases List.mem_map.mp hx with ⟨p, hp, hpk⟩
    exact ha (List.any_eq_true.mpr ⟨p, hp, by simp [hpk]⟩)

theorem scalar_fields_nodup {hasCol : String → String → Bool} {name : String}
    {kvs : List (String × JValue)} :
    ∀ {pre : Row}, (pre.map Prod.fst).Nodup →
      ((scalar_fields hasCol name pre kvs).map Prod.fst).Nodup := by
  induction kvs with
  | nil => intro pre h; exact h
  | cons kv rest ih =>
    intro pre h
    obtain ⟨k, v⟩ := kv
    simp only [scalar_fields]
    by_cases hc : hasCol name k
    · rw [if_pos hc]
      exact ih (assocSet_nodup h)
    · rw [if_neg hc]
      exact ih h

theorem assocGet_self {r : Row} (h : (r.map Prod.fst).Nodup) :
    ∀ kv ∈ r, assocGet r kv.1 = some kv.2 := by
  induction r with
  | nil => simp
  | cons p r ih =>
    obtain ⟨k, v⟩ := p
    intro kv hkv
    rcases List.mem_cons.mp hkv with rfl | hkv
    · simp [assocGet, List.find?]
    · have hk : ¬ ((k, v).1 = kv.1) := by
        intro he
        simp only [List.map_cons, List.nodup_cons] at h
        apply h.1
        have hm : kv.1 ∈ r.map Prod.fst := List.mem_map.mpr ⟨kv, hkv, rfl⟩
        have he' : k = kv.1 := he
        rw [he']
        exact hm
      rw [assocGet, List.find?_cons_of_neg _ (by simpa using hk)]
      simp only [List.map_cons, List.nodup_cons] at h
      exact ih h.2 kv hkv

theorem rowMatches_self {r : Row} (h : (r.map Prod.fst).Nodup) :
    rowMatches r r = true := by
  rw [rowMatches, List.all_eq_true]
  intro kv hkv
  simp only [decide_eq_true_eq]
  exact assocGet_self h kv hkv

/-- C6: importing the same flat object of scalar fields into the same root
table twice in non-simple mode yields exactly one row in that table: the
first run stages and commits one row; the second run's deduplication lookup
(exact equality on all gathered scalar fields) finds that row and reuses it
instead of inserting a second one. -/
theorem import_flat_object_twice_dedup
    (hasCol : String → String → Bool) (root : String) (db : List (String × Row))
    (kvs : List (String × JValue))
    (hflat : ∀ kv ∈ kvs, is_scalar_value kv.2 = true)
    (hne : kvs ≠ [])
    (hdb : db.filter (fun p => p.1 = root) = []) :
    insert_data_to_schema hasCol false (fun _ _ => false) root true db (JValue.obj kvs) =
      InsertOutcome.ok (db ++ [(root, scalar_fields hasCol root [] kvs)]) ∧
    insert_data_to_schema hasCol false (fun _ _ => false) root true
      (db ++ [(root, scalar_fields hasCol root [] kvs)]) (JValue.obj kvs) =
      InsertOutcome.ok (db ++ [(root, scalar_fields hasCol root [] kvs)]) ∧
    ((db ++ [(root, scalar_fields hasCol root [] kvs)]).filter
      (fun p => p.1 = root)).map (fun p => p.2) = [scalar_fields hasCol root [] kvs] := by
  have hke : kvs.isEmpty = false := by
    cases kvs with
    | nil => exact absurd rfl hne
    | cons a l => rfl
  refine ⟨?_, ?_, ?_⟩
  case refine_3 =>
    simp only [List.filter_append, hdb, List.nil_append]
    simp
  case refine_1 =>
    have hq1 : queryFirst ⟨db, []⟩ root (scalar_fields hasCol root [] kvs) = none := by
      rw [queryFirst, rowsOf]
      simp only [List.append_nil]
      rw [hdb]
      rfl
    unfold insert_data_to_schema
    simp only [wrap_root, make_relational_obj, hke, Bool.false_eq_true, if_false,
      mro_fields_scalars hflat, Bool.not_false, if_true, hq1]
    simp
  case refine_2 =>
    have hnd : ((scalar_fields hasCol root [] kvs).map Prod.fst).Nodup :=
      scalar_fields_nodup (by simp)
    have hq2 : queryFirst ⟨db ++ [(root, scalar_fields hasCol root [] kvs)], []⟩ root
        (scalar_fields hasCol root [] kvs) = some (scalar_fields hasCol root [] kvs) := by
      rw [queryFirst, rowsOf]
      simp only [List.append_nil, List.filter_append]
      rw [hdb]
      simp only [List.nil_append]
      simp [List.find?, rowMatches_self hnd]
    unfold insert_data_to_schema
    simp only [wrap_root, make_relational_obj, hke, Bool.false_eq_true, if_false,
      mro_fields_scalars hflat, Bool.not_false, if_true, hq2]
    simp

/-- Witness for C6 at the spec's concrete flat object: two imports, one row. -/
theorem import_flat_object_twice_dedup_witness :
    insert_data_to_schema (fun _ _ => true) false (fun _ _ => false) "main" true []
        (JValue.obj [("x", JValue.int 1), ("y", JValue.str "a")]) =
      InsertOutcome.ok [("main", [("x", JValue.int 1), ("y", JValue.str "a")])] ∧
    insert_data_to_schema (fun _ _ => true) false (fun _ _ => false) "main" true
        [("main", [("x", JValue.int 1), ("y", JValue.str "a")])]
        (JValue.obj [("x", JValue.int 1), ("y", JValue.str "a")]) =
      InsertOutcome.ok [("main", [("x", JValue.int 1), ("y", JValue.str "a")])] := by
  have h := import_flat_object_twice_dedup (fun _ _ => true) "main" []
    [("x", JValue.int 1), ("y", JValue.str "a")] (by decide) (by decide) rfl
  have hsf : scalar_fields (fun _ _ => true) "main" []
      [("x", JValue.int 1), ("y", JValue.str "a")] =
      [("x", JValue.int 1), ("y", JValue.str "a")] := by
    simp [scalar_fields, assocSet]
  rw [hsf] at h
  exact ⟨h.1, h.2.1⟩
